import Mathlib

/-!
# Censorly — verification of spec claims against a shallow embedding

This file embeds, in Lean 4, the parts of the Censorly repository that the
frozen claims C1–C10 talk about, and proves or refutes each claim.

Conventions of the embedding:
* Python `dict`s become association lists `List (String × α)` with
  `Dict.get` mirroring `dict.get(key, default)` (first binding wins; the
  Python dicts in question have unique keys).
* Python `float` becomes `ℚ` (the numeric literals in the source are all
  exactly representable; `x ** 0.5` is embedded by `Rat.sqrt`, which is
  exact on perfect squares — every concrete evaluation below only takes
  square roots of `0`).
* Millisecond timestamps become `Int` (Python ints).
* Database effects become explicit state values (lists of rows).
-/

namespace Censorly

/-! ## String helpers

Python's `str.lower()` / `str.strip()` and lexicographic comparison are
embedded structurally over the character list of a `String` (the strings
involved are ASCII). -/

/-- `s.lower()`. -/
def lowerStr (s : String) : String := ⟨s.data.map Char.toLower⟩

/-- `s.strip()`. -/
def stripStr (s : String) : String :=
  ⟨((s.data.dropWhile Char.isWhitespace).reverse.dropWhile Char.isWhitespace).reverse⟩

/-- Code-point lexicographic `≤` on character lists (Python `str` order). -/
def charListLe : List Char → List Char → Bool
  | [], _ => true
  | _ :: _, [] => false
  | a :: as, b :: bs =>
      if a.val < b.val then true
      else if b.val < a.val then false
      else charListLe as bs

/-- Python `a <= b` on strings. -/
def strLe (a b : String) : Bool := charListLe a.data b.data

/-! ## Dictionary helpers (Python `dict.get`) -/

/-- `dict.get(k)` — first binding for `k`, if any. -/
def dictFind (m : List (String × α)) (k : String) : Option α :=
  (m.find? (fun p => p.1 = k)).map (·.2)

/-- `dict.get(k, default)`. -/
def dictGet (m : List (String × α)) (k : String) (dflt : α) : α :=
  (dictFind m k).getD dflt

/-- `k in dict`. -/
def dictMem (m : List (String × α)) (k : String) : Bool :=
  (m.find? (fun p => p.1 = k)).isSome

/-- Keys of a dict in insertion order. -/
def dictKeys (m : List (String × α)) : List String := m.map (·.1)

theorem dictFind_eq_none_of_not_mem {m : List (String × α)} {k : String}
    (h : k ∉ dictKeys m) : dictFind m k = none := by
  have hf : m.find? (fun p => p.1 = k) = none := by
    refine List.find?_eq_none.mpr (fun p hp => ?_)
    simp only [decide_eq_true_eq]
    intro hk
    exact h (hk ▸ List.mem_map.mpr ⟨p, hp, rfl⟩)
  simp [dictFind, hf]

/-!
## C1 — `compute_effective_modes`
Source: `src/apps/api/repositories/preference_repo.py`, lines 106–119.

```python
def compute_effective_modes(row: dict) -> Dict[str, str]:
    allow_map = row.get("allow_map") or {}
    mode_map  = row.get("mode_map")  or {}
    global_mode = row.get("mode") or "blur"
    cats = set(allow_map.keys()) | set(mode_map.keys())
    effective = {}
    for cat in cats:
        allow = allow_map.get(cat, True)
        if allow is True:
            effective[cat] = "none"
        else:
            effective[cat] = mode_map.get(cat, global_mode)
    return effective
```
-/

/-- A preference-profile row as `compute_effective_modes` reads it:
the fields `allow_map`, `mode_map` and `mode` of the stored profile.
`mode = none` or `mode = some ""` models a falsy `row.get("mode")`. -/
structure ProfileRow where
  mode : Option String
  allow_map : List (String × Bool)
  mode_map : List (String × String)

/-- The category union `set(allow_map.keys()) | set(mode_map.keys())`,
as a duplicate-free list (first-occurrence order; the Python `set`
iteration order is unspecified, and the result is a dict keyed by
category, so only the key→value mapping matters). -/
def catUnion (row : ProfileRow) : List String :=
  (dictKeys row.allow_map ++ dictKeys row.mode_map).dedup

/-- `compute_effective_modes` (preference_repo.py:106–119). -/
def compute_effective_modes (row : ProfileRow) : List (String × String) :=
  let global_mode :=
    match row.mode with
    | none => "blur"
    | some m => if m = "" then "blur" else m
  (catUnion row).map (fun cat =>
    (cat, if dictGet row.allow_map cat true
          then "none"
          else dictGet row.mode_map cat global_mode))

/-- The C1 profile: global `mode="skip"`, `allow_map={"blood": true}`,
`mode_map={"alcohol": "blur"}`. -/
def c1row : ProfileRow :=
  { mode := some "skip"
    allow_map := [("blood", true)]
    mode_map := [("alcohol", "blur")] }

end Censorly

namespace Censorly

/-!
## C8 — `quantize` and the alcohol preset
Source: `src/ai/inference/derive_dynamic_thresholds.py`, lines 118–125 and 68–85.

```python
def quantize(x: float, bands: List[float], cuts: List[float]) -> float:
    if not bands: return x
    if (not cuts) or len(cuts) != len(bands)-1:
        return bands[-1]
    for i, c in enumerate(cuts):
        if x >= c:
            return bands[i]
    return bands[-1]
```
-/

/-- The `for i, c in enumerate(cuts): if x >= c: return bands[i]` loop,
walking `cuts` and `bands` in lock step; `last` is `bands[-1]`. -/
def quantizeLoop (x : ℚ) (last : ℚ) : List ℚ → List ℚ → ℚ
  | c :: cs, b :: bs => if x ≥ c then b else quantizeLoop x last cs bs
  | _, _ => last

/-- `quantize` (derive_dynamic_thresholds.py:118–125). -/
def quantize (x : ℚ) (bands cuts : List ℚ) : ℚ :=
  match bands with
  | [] => x
  | _ =>
    if cuts.isEmpty ∨ cuts.length ≠ bands.length - 1 then bands.getLastD 0
    else quantizeLoop x (bands.getLastD 0) cuts bands

/-- Alcohol preset `bands` (derive_dynamic_thresholds.py:79). -/
def alcoholBands : List ℚ := [0.55, 0.50, 0.45, 0.40, 0.35]

/-- Alcohol preset `cuts` (derive_dynamic_thresholds.py:80). -/
def alcoholCuts : List ℚ := [0.52, 0.475, 0.425, 0.375]

/-!
## C7 — Videos-router preset table and orchestrator score filter
Sources: `src/apps/api/routers/videos.py` lines 29–62,
`src/ai/inference/pipeline_analyze.py` lines 100–116 and 201–212.
-/

/-- `_PRESET_TABLE` (videos.py:29–39): per-category preset → confidence floor. -/
def PRESET_TABLE : List (String × List (String × ℚ)) :=
  [ ("alcohol",  [("low", 0.25), ("medium", 0.30), ("high", 0.45)])
  , ("blood",    [("low", 0.15), ("medium", 0.20), ("high", 0.25)])
  , ("violence", [("low", 0.30), ("medium", 0.50), ("high", 0.60)])
  , ("phobic",            [("low", 0.10), ("medium", 0.10), ("high", 0.15)])
  , ("phobic/clown",      [("low", 0.10), ("medium", 0.30), ("high", 0.70)])
  , ("phobic/spider",     [("low", 0.10), ("medium", 0.30), ("high", 0.70)])
  , ("phobic/snake",      [("low", 0.10), ("medium", 0.30), ("high", 0.70)])
  , ("obscene",           [("low", 0.15), ("medium", 0.30), ("high", 0.50)])
  ]

/-- `_PRESET_TABLE[cat][preset]` (a `KeyError` in Python becomes `0`;
every lookup below hits an existing key). -/
def presetLookup (cat preset : String) : ℚ :=
  dictGet (dictGet PRESET_TABLE cat []) preset 0

/-- `_build_min_conf_map_from_presets` (videos.py:47–62), as the key→floor
map it denotes.  (The source serialises the map to a `label=value,…` string
with two decimals and the orchestrator's `parse_min_conf_map` parses it back
lower-cased; all keys are already lower-case and all table values are exact
at two decimals, so the round trip is the identity on this map.) -/
def build_min_conf_map_from_presets
    (alcohol_p blood_p violence_p clown_p spider_p snake_p obscene_p : String) :
    List (String × ℚ) :=
  [ ("alcohol", presetLookup "alcohol" alcohol_p)
  , ("blood", presetLookup "blood" blood_p)
  , ("violence", presetLookup "violence" violence_p)
  , ("phobic", presetLookup "phobic" "medium")
  , ("phobic/clown", presetLookup "phobic/clown" clown_p)
  , ("phobic/spider", presetLookup "phobic/spider" spider_p)
  , ("phobic/snake", presetLookup "phobic/snake" snake_p)
  , ("obscene", presetLookup "obscene" obscene_p)
  ]

/-- `resolve_min_conf` (pipeline_analyze.py:100–116): precedence
`label/raw > label > fallback`, keys looked up lower-cased. -/
def resolve_min_conf (min_map : List (String × ℚ)) (label : String)
    (raw_label : Option String) (fallback : ℚ) : ℚ :=
  let lbl := lowerStr label
  let raw := raw_label.map lowerStr
  match raw with
  | some r =>
      let key := lbl ++ "/" ++ r
      if dictMem min_map key then dictGet min_map key fallback
      else if dictMem min_map lbl then dictGet min_map lbl fallback
      else fallback
  | none =>
      if dictMem min_map lbl then dictGet min_map lbl fallback
      else fallback

/-- The orchestrator's keep decision (pipeline_analyze.py:205–212):
`if score < min_needed: continue` — a detection is kept iff
`score ≥ resolve_min_conf …`. -/
def orchestratorKeeps (min_map : List (String × ℚ)) (label : String)
    (raw_label : Option String) (fallback : ℚ) (score : ℚ) : Bool :=
  ¬ score < resolve_min_conf min_map label raw_label fallback

end Censorly

namespace Censorly

/-! ## Theorems for C1 -/

/-- Keys of the effective map are exactly the category union. -/
theorem dictKeys_compute_effective_modes (row : ProfileRow) :
    dictKeys (compute_effective_modes row) = catUnion row := by
  simp [compute_effective_modes, dictKeys, List.map_map, Function.comp_def]

/-- C1 counterexample: on the C1 profile (`mode="skip"`,
`allow_map={"blood": true}`, `mode_map={"alcohol": "blur"}`) the code maps
`"alcohol"` to `"none"`, not to `"blur"` as the claim demands: `alcohol`
has no `allow_map` entry, so `allow_map.get("alcohol", True)` is `True`
and the `mode_map` is never consulted. -/
theorem c1_counterexample :
    dictFind (compute_effective_modes c1row) "alcohol" = some "none" ∧
    dictFind (compute_effective_modes c1row) "alcohol" ≠ some "blur" := by
  constructor <;> decide

/-- C1 (amended): on the C1 profile `compute_effective_modes` returns
exactly `{"blood": "none", "alcohol": "none"}` (a category mentioned only
in `mode_map`, with no allow override, defaults to allowed and therefore
to `"none"`); and for every profile the effective map mentions no category
absent from both `allow_map` and `mode_map`. -/
theorem c1_effective_modes :
    compute_effective_modes c1row = [("blood", "none"), ("alcohol", "none")] ∧
    ∀ (row : ProfileRow) (cat : String),
      cat ∉ dictKeys row.allow_map → cat ∉ dictKeys row.mode_map →
      dictFind (compute_effective_modes row) cat = none := by
  refine ⟨by decide, fun row cat h1 h2 => ?_⟩
  apply dictFind_eq_none_of_not_mem
  rw [dictKeys_compute_effective_modes]
  intro hmem
  rcases List.mem_append.mp (List.mem_dedup.mp hmem) with h | h
  · exact h1 h
  · exact h2 h

/-- Witness for C1: instantiating the universal part at the C1 profile and
the category `"violence"`, which is absent from both maps. -/
theorem c1_effective_modes_witness :
    "violence" ∉ dictKeys c1row.allow_map ∧
    "violence" ∉ dictKeys c1row.mode_map ∧
    dictFind (compute_effective_modes c1row) "violence" = none :=
  ⟨by decide, by decide,
    c1_effective_modes.2 c1row "violence" (by decide) (by decide)⟩

/-! ## Theorems for C8 -/

/-- On the alcohol preset, `quantize` is the five-band step function with
breakpoints `cuts = [0.52, 0.475, 0.425, 0.375]`. -/
theorem quantize_alcohol_eq (x : ℚ) :
    quantize x alcoholBands alcoholCuts =
      (if x ≥ 0.52 then 0.55 else if x ≥ 0.475 then 0.50
       else if x ≥ 0.425 then 0.45 else if x ≥ 0.375 then 0.40 else 0.35) := by
  simp [quantize, alcoholBands, alcoholCuts, quantizeLoop]

/-- C8: under the alcohol preset (bands `[0.55,0.50,0.45,0.40,0.35]`, cuts
`[0.52,0.475,0.425,0.375]`), `quantize` maps any value ≥ 0.52 to 0.55, any
value in `[0.475, 0.52)` to 0.50, any value in `[0.425, 0.475)` to 0.45,
and any value below 0.375 to the lowest band 0.35. -/
theorem c8_quantize_alcohol (x : ℚ) :
    (0.52 ≤ x → quantize x alcoholBands alcoholCuts = 0.55) ∧
    (0.475 ≤ x → x < 0.52 → quantize x alcoholBands alcoholCuts = 0.50) ∧
    (0.425 ≤ x → x < 0.475 → quantize x alcoholBands alcoholCuts = 0.45) ∧
    (x < 0.375 → quantize x alcoholBands alcoholCuts = 0.35) := by
  refine ⟨fun h => ?_, fun h h' => ?_, fun h h' => ?_, fun h => ?_⟩ <;>
    rw [quantize_alcohol_eq] <;> split_ifs <;> first | rfl | linarith

/-- Witness for C8: the four cases at `0.53`, `0.48`, `0.43` and `0.2`. -/
theorem c8_quantize_alcohol_witness :
    quantize 0.53 alcoholBands alcoholCuts = 0.55 ∧
    quantize 0.48 alcoholBands alcoholCuts = 0.50 ∧
    quantize 0.43 alcoholBands alcoholCuts = 0.45 ∧
    quantize 0.2 alcoholBands alcoholCuts = 0.35 :=
  ⟨(c8_quantize_alcohol 0.53).1 (by norm_num),
   (c8_quantize_alcohol 0.48).2.1 (by norm_num) (by norm_num),
   (c8_quantize_alcohol 0.43).2.2.1 (by norm_num) (by norm_num),
   (c8_quantize_alcohol 0.2).2.2.2 (by norm_num)⟩

/-! ## Theorems for C7 -/

/-- The min-conf map the Videos Router builds when every category uses the
same preset `p`. -/
def presetMap (p : String) : List (String × ℚ) :=
  build_min_conf_map_from_presets p p p p p p p

/-- C7: the preset table yields blood floors 0.25 (`high`) and 0.15
(`low`); a blood detection scored exactly 0.20 is kept by the
orchestrator's filter under the `low` and `medium` preset maps but
discarded under `high`; and in general the orchestrator keeps a detection
iff its score is at least the resolved floor. -/
theorem c7_blood_preset_floors :
    presetLookup "blood" "high" = 0.25 ∧
    presetLookup "blood" "low" = 0.15 ∧
    orchestratorKeeps (presetMap "low") "blood" none 0.15 0.20 = true ∧
    orchestratorKeeps (presetMap "medium") "blood" none 0.15 0.20 = true ∧
    orchestratorKeeps (presetMap "high") "blood" none 0.15 0.20 = false ∧
    ∀ (mm : List (String × ℚ)) (lbl : String) (raw : Option String) (fb sc : ℚ),
      (orchestratorKeeps mm lbl raw fb sc = true ↔
        resolve_min_conf mm lbl raw fb ≤ sc) := by
  have hlow : resolve_min_conf (presetMap "low") "blood" none 0.15 = 0.15 := rfl
  have hmed : resolve_min_conf (presetMap "medium") "blood" none 0.15 = 0.20 := rfl
  have hhigh : resolve_min_conf (presetMap "high") "blood" none 0.15 = 0.25 := rfl
  refine ⟨rfl, rfl, ?_, ?_, ?_, fun mm lbl raw fb sc => ?_⟩
  · simp only [orchestratorKeeps, hlow, decide_eq_true_eq]; norm_num
  · simp only [orchestratorKeeps, hmed, decide_eq_true_eq]; norm_num
  · simp only [orchestratorKeeps, hhigh]; norm_num
  · simp [orchestratorKeeps, not_lt]

end Censorly

namespace Censorly

/-!
## C2 / C10 — detection ingestion paths
Sources: `src/apps/api/routers/analyses.py` lines 130–152 (`ingest`),
`src/apps/api/routers/videos.py` lines 65–83 (`_norm_label`) and 129–156
(`_ingest_jsonl_to_db`), `src/apps/api/schemas/analysis.py` (`DetectionIn`).
-/

/-- `ALLOWED_LABELS` (analyses.py:42) = `_DB_LABELS` (videos.py:22) =
`_ALLOWED_LABELS` (videos.py:116). -/
def ALLOWED_LABELS : List String := ["alcohol", "blood", "violence", "phobic", "obscene"]

/-- A validated `DetectionIn` element of an ingest batch
(schemas/analysis.py).  Free-form `extra` values are modelled as strings
(only the string-valued `raw_label` entry is ever read); the
list-vs-field-map `bbox` union is modelled by its list alternative, which
is the only shape the claims exercise. -/
structure DetectionIn where
  ts_ms : Int
  label : String
  score : ℚ
  bbox : Option (List ℚ)
  track_id : Option Int
  extra : List (String × String)

/-- A `DetectionEvent` row as built by either ingestion path (job id left
implicit — both paths write rows of one fixed job). -/
structure DetRow where
  ts_ms : Int
  label : String
  score : Option ℚ
  bbox : Option (List ℚ)
  track_id : Option Int
  extra : List (String × String)
  deriving DecidableEq

/-- The row-building loop of `ingest` (analyses.py:136–148): walk the
batch, raising `HTTPException(400, "invalid label: …")` at the first label
outside `ALLOWED_LABELS`, otherwise accumulating one row per detection.
`db.add_all` runs only after the loop, so an error inserts nothing. -/
def ingestLoop : List DetectionIn → List DetRow → Except String (List DetRow)
  | [], acc => .ok acc
  | d :: ds, acc =>
      if d.label ∉ ALLOWED_LABELS then .error ("invalid label: " ++ d.label)
      else ingestLoop ds (acc ++
        [{ ts_ms := d.ts_ms, label := d.label, score := some d.score,
           bbox := d.bbox, track_id := d.track_id, extra := d.extra }])

/-- `POST /analysis/jobs/{id}/ingest` (analyses.py:130–152) on an existing
job: either a 400 error or the list of inserted rows. -/
def ingest (dets : List DetectionIn) : Except String (List DetRow) :=
  ingestLoop dets []

/-- The rows actually inserted into the database by one `ingest` call
(empty when the endpoint raises before reaching `db.add_all`). -/
def ingestDbDelta (dets : List DetectionIn) : List DetRow :=
  match ingest dets with
  | .ok rows => rows
  | .error _ => []

/-- The endpoint's `{"ok": true, "inserted": len(rows)}` count. -/
def ingestResponse (dets : List DetectionIn) : Except String Nat :=
  (ingest dets).map (·.length)

/-- `_PHOBIC_CANON` (videos.py:23). -/
def PHOBIC_CANON : List (String × String) :=
  [("clown", "Clown"), ("spider", "Spider"), ("snake", "Snake")]

/-- `dict.setdefault(k, v)`. -/
def setdefault (m : List (String × String)) (k v : String) : List (String × String) :=
  if dictMem m k then m else m ++ [(k, v)]

/-- `_norm_label` (videos.py:65–83). -/
def norm_label (label : String) (extra : List (String × String)) :
    String × List (String × String) :=
  let s := stripStr label
  let low0 := lowerStr s
  let low := if low0.data.take 7 = "phobic/".data then ⟨low0.data.drop 7⟩ else low0
  if dictMem PHOBIC_CANON low then
    ("phobic", setdefault extra "raw_label" (dictGet PHOBIC_CANON low ""))
  else if low = "nudity" ∨ low = "obscene" ∨ low = "nudenet" then
    ("obscene", extra)
  else if s ∈ (PHOBIC_CANON.map (·.2)) then
    ("phobic", setdefault extra "raw_label" s)
  else if low ∈ ALLOWED_LABELS then
    (low, extra)
  else
    (s, extra)

/-- One parsed JSON-Lines record as `_ingest_jsonl_to_db` reads it.
`score`/`confidence` and `label`/`category` are the alternative source
fields; `extraRest` is the residue of the record that lands in `extra`. -/
structure JsonlObj where
  ts_ms : Option Int
  label : Option String
  category : Option String
  score : Option ℚ
  confidence : Option ℚ
  bbox : Option (List ℚ)
  track_id : Option Int
  extraRest : List (String × String)

/-- `(obj.get("label") or obj.get("category") or "")` — Python falsy
chaining on strings. -/
def rawLabelOf (o : JsonlObj) : String :=
  let l := o.label.getD ""
  if l ≠ "" then l else o.category.getD ""

/-- `obj.get("score") or obj.get("confidence")` — a `score` of `0.0` (or
`None`) falls through to `confidence`. -/
def scoreOf (o : JsonlObj) : Option ℚ :=
  match o.score with
  | some s => if s ≠ 0 then some s else o.confidence
  | none => o.confidence

/-- `_ingest_jsonl_to_db` (videos.py:129–156): the rows inserted for a
job's JSONL file (the 1000-row commit batching only chunks the inserts
and does not change which rows are written). -/
def ingestJsonlRows (objs : List JsonlObj) : List DetRow :=
  objs.filterMap (fun o =>
    let label_raw := stripStr (rawLabelOf o)
    match o.ts_ms with
    | none => none
    | some ts =>
        if label_raw = "" then none
        else
          let ln := norm_label label_raw o.extraRest
          if ln.1 = "" ∨ ln.1 ∉ ALLOWED_LABELS then none
          else some { ts_ms := ts, label := ln.1, score := scoreOf o,
                      bbox := o.bbox, track_id := o.track_id, extra := ln.2 })

end Censorly

namespace Censorly

/-- The row built from one validated batch element (analyses.py:140–148). -/
def detToRow (d : DetectionIn) : DetRow :=
  { ts_ms := d.ts_ms, label := d.label, score := some d.score,
    bbox := d.bbox, track_id := d.track_id, extra := d.extra }

theorem ingestLoop_ok_of_all (dets : List DetectionIn) (acc : List DetRow)
    (h : ∀ d ∈ dets, d.label ∈ ALLOWED_LABELS) :
    ingestLoop dets acc = .ok (acc ++ dets.map detToRow) := by
  induction dets generalizing acc with
  | nil => simp [ingestLoop]
  | cons d ds ih =>
      have hd := h d (by simp)
      rw [ingestLoop, if_neg (by simp [hd])]
      rw [ih _ (fun x hx => h x (List.mem_cons_of_mem _ hx))]
      simp [detToRow]

theorem ingestLoop_error_of_exists (dets : List DetectionIn) (acc : List DetRow)
    (h : ∃ d ∈ dets, d.label ∉ ALLOWED_LABELS) :
    ∃ msg, ingestLoop dets acc = .error msg := by
  induction dets generalizing acc with
  | nil => simp at h
  | cons d ds ih =>
      by_cases hd : d.label ∈ ALLOWED_LABELS
      · rcases h with ⟨x, hx, hxl⟩
        rcases List.mem_cons.mp hx with rfl | hxs
        · exact absurd hd hxl
        · rw [ingestLoop, if_neg (by simpa using hd)]
          exact ih _ ⟨x, hxs, hxl⟩
      · exact ⟨_, by rw [ingestLoop, if_pos hd]⟩

/-- C10: `POST /analysis/jobs/{id}/ingest` validates the whole batch
before inserting: a batch containing any detection whose label is outside
the five-category vocabulary produces a 400 error and inserts zero rows;
a fully valid batch inserts one row per detection and reports exactly that
count. -/
theorem c10_ingest_validates_batch (dets : List DetectionIn) :
    ((∃ d ∈ dets, d.label ∉ ALLOWED_LABELS) →
      (∃ msg, ingestResponse dets = .error msg) ∧ ingestDbDelta dets = []) ∧
    ((∀ d ∈ dets, d.label ∈ ALLOWED_LABELS) →
      ingestResponse dets = .ok dets.length ∧
        (ingestDbDelta dets).length = dets.length) := by
  constructor
  · intro h
    obtain ⟨msg, hmsg⟩ := ingestLoop_error_of_exists dets [] h
    exact ⟨⟨msg, by simp [ingestResponse, ingest, hmsg, Except.map]⟩,
           by simp [ingestDbDelta, ingest, hmsg]⟩
  · intro h
    have hok := ingestLoop_ok_of_all dets [] h
    constructor
    · simp [ingestResponse, ingest, hok, Except.map]
    · simp [ingestDbDelta, ingest, hok]

/-- Witness for C10: a bad batch (one `"Clown"`-labelled detection) is
rejected wholesale, and a good batch of two detections inserts two rows. -/
theorem c10_ingest_validates_batch_witness :
    ((∃ msg, ingestResponse [⟨0, "Clown", 0.9, none, none, []⟩] = .error msg) ∧
      ingestDbDelta [⟨0, "Clown", 0.9, none, none, []⟩] = []) ∧
    (ingestResponse [⟨0, "blood", 0.9, none, none, []⟩, ⟨10, "alcohol", 0.8, none, none, []⟩] = .ok 2 ∧
      (ingestDbDelta [⟨0, "blood", 0.9, none, none, []⟩, ⟨10, "alcohol", 0.8, none, none, []⟩]).length = 2) :=
  ⟨(c10_ingest_validates_batch _).1
      ⟨⟨0, "Clown", 0.9, none, none, []⟩, List.mem_singleton_self _, by decide⟩,
   (c10_ingest_validates_batch _).2 (by
      intro d hd
      rcases List.mem_cons.mp hd with rfl | hd
      · decide
      · rcases List.mem_cons.mp hd with rfl | hd
        · decide
        · simp at hd)⟩

/-- Keys present after `setdefault` include the defaulted key. -/
theorem dictMem_setdefault (m : List (String × String)) (k v : String) :
    dictMem (setdefault m k v) k = true := by
  by_cases h : dictMem m k
  · simp [setdefault, h]
  · simp only [setdefault, h, if_false, Bool.false_eq_true]
    simp only [dictMem] at h ⊢
    induction m with
    | nil => simp
    | cons p ps ih =>
        by_cases hp : p.1 = k
        · simp [List.find?, hp] at h
        · simp only [List.cons_append, List.find?]
          simp only [List.find?] at h
          cases hfind : (decide (p.1 = k)) with
          | true => simp_all
          | false => simp only [hfind] at h ⊢; exact ih h

end Censorly

namespace Censorly

/-- C2: both database ingestion paths only ever store one of the five
fixed categories as `DetectionEvent.label`: (a) the Analyses Router's
ingest endpoint inserts only vocabulary labels (anything else 400s the
batch), (b) the Videos Router's JSONL ingestion inserts only vocabulary
labels (anything else is skipped); (c) a phobic sub-label is normalised
to primary label `"phobic"` with the sub-label recorded in
`extra.raw_label`; and (d) no model sub-label string is itself in the
vocabulary, so none is ever stored as a primary label. -/
theorem c2_stored_labels :
    (∀ (dets : List DetectionIn), ∀ r ∈ ingestDbDelta dets, r.label ∈ ALLOWED_LABELS) ∧
    (∀ (objs : List JsonlObj), ∀ r ∈ ingestJsonlRows objs, r.label ∈ ALLOWED_LABELS) ∧
    (∀ (lab : String) (extra : List (String × String)), lab ∈ PHOBIC_CANON.map (·.2) →
      (norm_label lab extra).1 = "phobic" ∧
        dictMem (norm_label lab extra).2 "raw_label" = true) ∧
    (∀ lab ∈ ["Clown", "Spider", "Snake", "nudenet", "nudity"], lab ∉ ALLOWED_LABELS) := by
  refine ⟨?_, ?_, ?_, by decide⟩
  · intro dets r hr
    by_cases hall : ∀ d ∈ dets, d.label ∈ ALLOWED_LABELS
    · rw [ingestDbDelta, ingest, ingestLoop_ok_of_all dets [] hall] at hr
      simp only [List.nil_append, List.mem_map] at hr
      obtain ⟨d, hd, rfl⟩ := hr
      exact hall d hd
    · push_neg at hall
      obtain ⟨msg, hmsg⟩ :=
        ingestLoop_error_of_exists dets [] (by simpa using hall)
      rw [ingestDbDelta, ingest, hmsg] at hr
      simp at hr
  · intro objs r hr
    simp only [ingestJsonlRows, List.mem_filterMap] at hr
    obtain ⟨o, _, hfo⟩ := hr
    cases hts : o.ts_ms with
    | none => simp [hts] at hfo
    | some ts =>
        simp only [hts] at hfo
        by_cases h1 : stripStr (rawLabelOf o) = ""
        · simp [h1] at hfo
        · rw [if_neg h1] at hfo
          by_cases h2 : (norm_label (stripStr (rawLabelOf o)) o.extraRest).1 = "" ∨
              (norm_label (stripStr (rawLabelOf o)) o.extraRest).1 ∉ ALLOWED_LABELS
          · simp [h2] at hfo
          · rw [if_neg h2] at hfo
            push_neg at h2
            cases hfo
            exact h2.2
  · intro lab extra hlab
    simp only [PHOBIC_CANON, List.map_cons, List.map_nil, List.mem_cons,
      List.not_mem_nil, or_false] at hlab
    rcases hlab with rfl | rfl | rfl
    · have h : norm_label "Clown" extra =
          ("phobic", setdefault extra "raw_label" "Clown") := rfl
      exact ⟨by rw [h], by rw [h]; exact dictMem_setdefault _ _ _⟩
    · have h : norm_label "Spider" extra =
          ("phobic", setdefault extra "raw_label" "Spider") := rfl
      exact ⟨by rw [h], by rw [h]; exact dictMem_setdefault _ _ _⟩
    · have h : norm_label "Snake" extra =
          ("phobic", setdefault extra "raw_label" "Snake") := rfl
      exact ⟨by rw [h], by rw [h]; exact dictMem_setdefault _ _ _⟩

/-- Witness for C2: a `"violence"` batch row, a `"phobic/clown"` JSONL
record (stored with primary label `"phobic"`), and `"Clown"` normalised
into `extra.raw_label`. -/
theorem c2_stored_labels_witness :
    (detToRow ⟨5, "violence", 0.7, none, none, []⟩).label ∈ ALLOWED_LABELS ∧
    ({ ts_ms := 100, label := "phobic", score := none, bbox := none,
       track_id := none, extra := [("raw_label", "Clown")] } : DetRow).label ∈ ALLOWED_LABELS ∧
    (norm_label "Clown" []).1 = "phobic" :=
  ⟨c2_stored_labels.1 [⟨5, "violence", 0.7, none, none, []⟩] _
      (by rw [ingestDbDelta, ingest,
              ingestLoop_ok_of_all _ _ (by intro d hd; rcases List.mem_cons.mp hd with rfl | hd
                                           · decide
                                           · simp at hd)]
          exact List.mem_singleton_self _),
   c2_stored_labels.2.1
      [{ ts_ms := some 100, label := some "phobic/clown", category := none,
         score := none, confidence := none, bbox := none, track_id := none,
         extraRest := [] }] _
      (List.mem_singleton_self _),
   (c2_stored_labels.2.2.1 "Clown" [] (by decide)).1⟩

end Censorly

namespace Censorly

/-!
## C6 — `/auth/refresh` rotation
Sources: `src/apps/api/routers/auth.py` lines 73–89 (`refresh_token`),
`src/apps/api/repositories/user_repo.py` lines 26–38
(`store_refresh_jti` / `revoke_refresh_jti` / `refresh_exists`).
-/

/-- The `user_refresh_tokens` table: one `(jti, user_id)` row per
currently-valid refresh token (`expires_at` plays no role in the refresh
endpoint's logic and is omitted). -/
structure RefreshState where
  tokens : List (String × String)

/-- The claims of a successfully decoded token (`decode_token` succeeded;
signature verification itself is outside the embedding — the endpoint is
modelled from the decoded payload on). -/
structure TokenPayload where
  typ : String
  jti : String
  sub : String

/-- `UserRepo.store_refresh_jti` (user_repo.py:26–31). -/
def store_refresh_jti (st : RefreshState) (jti user : String) : RefreshState :=
  { tokens := st.tokens ++ [(jti, user)] }

/-- `UserRepo.revoke_refresh_jti` (user_repo.py:33–35):
`DELETE FROM user_refresh_tokens WHERE jti = :j`. -/
def revoke_refresh_jti (st : RefreshState) (jti : String) : RefreshState :=
  { tokens := st.tokens.filter (fun p => p.1 ≠ jti) }

/-- `UserRepo.refresh_exists` (user_repo.py:37–38). -/
def refresh_exists (st : RefreshState) (jti : String) : Bool :=
  st.tokens.any (fun p => p.1 = jti)

/-- `POST /auth/refresh` (auth.py:73–89) on a decoded payload.  `newJti`
stands for the fresh `uuid4` id minted inside `create_refresh_token`;
the error value is the HTTP status 401. -/
def refreshEndpoint (st : RefreshState) (tok : TokenPayload) (newJti : String) :
    Except Nat (RefreshState × String) :=
  if tok.typ ≠ "refresh" then .error 401
  else if ¬ refresh_exists st tok.jti then .error 401
  else
    let st1 := revoke_refresh_jti st tok.jti
    let st2 := store_refresh_jti st1 newJti tok.sub
    .ok (st2, newJti)

/-- C6: a successful refresh with a refresh-typed, still-recorded token
deletes the presented jti (so a second refresh with the same token fails
with 401) and records exactly one new refresh jti, owned by the token's
user. -/
theorem c6_refresh_rotation (st : RefreshState) (tok : TokenPayload) (newJti : String)
    (htyp : tok.typ = "refresh")
    (hrec : refresh_exists st tok.jti = true)
    (hfresh : ∀ p ∈ st.tokens, p.1 ≠ newJti) :
    ∃ st', refreshEndpoint st tok newJti = .ok (st', newJti) ∧
      refresh_exists st' tok.jti = false ∧
      (∀ j2, refreshEndpoint st' tok j2 = .error 401) ∧
      st'.tokens.filter (fun p => p ∉ st.tokens) = [(newJti, tok.sub)] := by
  have hne : newJti ≠ tok.jti := by
    obtain ⟨p, hp, hpj⟩ := List.any_eq_true.mp hrec
    rw [decide_eq_true_eq] at hpj
    exact fun h => hfresh p hp (by rw [h, hpj])
  have hgone : refresh_exists
      (store_refresh_jti (revoke_refresh_jti st tok.jti) newJti tok.sub) tok.jti = false := by
    simp only [refresh_exists, store_refresh_jti, revoke_refresh_jti]
    rw [List.any_eq_false]
    intro p hp
    rcases List.mem_append.mp hp with hp | hp
    · have hne' := List.of_mem_filter hp
      simp only [decide_eq_true_eq] at hne' ⊢
      exact hne'
    · rw [List.mem_singleton] at hp
      subst hp
      simp only [decide_eq_true_eq]
      exact hne
  refine ⟨store_refresh_jti (revoke_refresh_jti st tok.jti) newJti tok.sub, ?_, hgone, ?_, ?_⟩
  · rw [refreshEndpoint, if_neg (by simp [htyp]), if_neg (by simp [hrec])]
  · intro j2
    rw [refreshEndpoint, if_neg (by simp [htyp]), if_pos (by simp [hgone])]
  · simp only [store_refresh_jti, revoke_refresh_jti, List.filter_append]
    have h1 : (st.tokens.filter (fun p => p.1 ≠ tok.jti)).filter
        (fun p => p ∉ st.tokens) = [] := by
      refine List.filter_eq_nil_iff.mpr (fun p hp => ?_)
      have hmem := List.mem_of_mem_filter hp
      simp only [decide_eq_true_eq]
      exact fun hno => hno hmem
    have h2 : ([((newJti, tok.sub) : String × String)]).filter
        (fun p => p ∉ st.tokens) = [(newJti, tok.sub)] := by
      refine List.filter_eq_self.mpr (fun p hp => ?_)
      rw [List.mem_singleton] at hp
      subst hp
      simp only [decide_eq_true_eq]
      intro hin
      exact hfresh _ hin rfl
    rw [h1, h2, List.nil_append]

/-- Witness for C6: one recorded token `("j1","u1")`, a matching
refresh-typed payload, fresh id `"j2"`. -/
theorem c6_refresh_rotation_witness :
    ∃ st', refreshEndpoint ⟨[("j1", "u1")]⟩ ⟨"refresh", "j1", "u1"⟩ "j2" = .ok (st', "j2") ∧
      refresh_exists st' "j1" = false ∧
      (∀ j2, refreshEndpoint st' ⟨"refresh", "j1", "u1"⟩ j2 = .error 401) ∧
      st'.tokens.filter (fun p => p ∉ [(("j1", "u1") : String × String)]) = [("j2", "u1")] :=
  c6_refresh_rotation ⟨[("j1", "u1")]⟩ ⟨"refresh", "j1", "u1"⟩ "j2" rfl (by decide)
    (by intro p hp; rw [List.mem_singleton] at hp; subst hp; decide)

end Censorly

namespace Censorly

/-!
## C4 — `_labels_from_mode_map`
Source: `src/apps/api/services/redaction_stream.py`, lines 25–48 (tables),
324–383 (phobic sub-label discovery) and 386–428 (`_labels_from_mode_map`).
-/

/-- `CATEGORY_LABELS` (redaction_stream.py:25–32). -/
def CATEGORY_LABELS : List (String × List String) :=
  [ ("alcohol", ["alcohol"])
  , ("blood", ["blood"])
  , ("violence", ["violence"])
  , ("phobic", ["Clown", "Spider", "Snake"])
  , ("obscene", ["nudenet"])
  , ("nudity", ["nudenet"])
  ]

/-- A value of a `DetectionEvent.extra` bag: a string, or a one-level
nested dict of strings (`{"extra": {...}}` / `{"extras": {...}}`).  The
bags this repository writes hold only strings at both levels. -/
inductive ExtraVal where
  | str (s : String)
  | dict (m : List (String × String))

/-- A stored `DetectionEvent` as the sub-label discovery reads it. -/
structure StoredDet where
  label : String
  extra : List (String × ExtraVal)

/-- A truthy string value (`if raw: return str(raw)`): present and
non-empty. -/
def truthyStr : Option ExtraVal → Option String
  | some (ExtraVal.str s) => if s = "" then none else some s
  | _ => none

/-- A truthy string read from a nested dict value. -/
def truthyNested (extra : List (String × ExtraVal)) (k sub : String) : Option String :=
  match dictFind extra k with
  | some (ExtraVal.dict m) =>
      match dictFind m sub with
      | some s => if s = "" then none else some s
      | none => none
  | _ => none

/-- `_raw_from_extra` (redaction_stream.py:324–345): `raw_label` /
`rawLabel` / `subtype` at the top level, else one level down under
`"extra"` / `"extras"`. -/
def rawFromExtra (extra : List (String × ExtraVal)) : Option String :=
  (truthyStr (dictFind extra "raw_label")).orElse (fun _ =>
  (truthyStr (dictFind extra "rawLabel")).orElse (fun _ =>
  (truthyStr (dictFind extra "subtype")).orElse (fun _ =>
  (truthyNested extra "extra" "raw_label").orElse (fun _ =>
  (truthyNested extra "extra" "rawLabel").orElse (fun _ =>
  (truthyNested extra "extra" "subtype").orElse (fun _ =>
  (truthyNested extra "extras" "raw_label").orElse (fun _ =>
  (truthyNested extra "extras" "rawLabel").orElse (fun _ =>
  (truthyNested extra "extras" "subtype")))))))))

/-- `_canon_phobic_name` (redaction_stream.py:349–354). -/
def canonPhobicName (s : String) : Option String :=
  let s1 := lowerStr (stripStr s)
  let s2 : String := if s1.data.take 7 = "phobic/".data then ⟨s1.data.drop 7⟩ else s1
  dictFind PHOBIC_CANON s2

/-- `_canon_from_label_or_extra` (redaction_stream.py:356–368). -/
def canonFromLabelOrExtra (label : String) (extra : List (String × ExtraVal)) :
    Option String :=
  if label ∈ PHOBIC_CANON.map (·.2) then some label
  else match canonPhobicName label with
    | some c => some c
    | none =>
        match rawFromExtra extra with
        | some raw => canonPhobicName raw
        | none => none

/-- `sorted(list(dict.fromkeys(xs)))` — the duplicates removed, then the
unique strings in ascending code-point order. -/
def mkuniq (xs : List String) : List String :=
  xs.dedup.insertionSort (fun a b => strLe a b = true)

/-- `_discover_phobic_sublabels` (redaction_stream.py:370–383): canonical
phobia sub-labels observed among a job's stored detections. -/
def discover_phobic_sublabels (dets : List StoredDet) : List String :=
  mkuniq (dets.filterMap (fun r => canonFromLabelOrExtra r.label r.extra))

/-- The `lbls` computed for one `mode_map` key inside `add_labels`
(redaction_stream.py:393–415). -/
def resolveKey (dets : List StoredDet) (key : String) : List String :=
  let k_raw := stripStr key
  let k := lowerStr k_raw
  if k.data.take 7 = "phobic/".data then
    let sub : String := ⟨k.data.drop 7⟩
    if dictMem PHOBIC_CANON sub then [dictGet PHOBIC_CANON sub ""]
    else dictGet CATEGORY_LABELS "phobic" []
  else if k = "nudity" ∨ k = "obscene" then dictGet CATEGORY_LABELS "nudity" []
  else if k = "phobic" then
    let found := discover_phobic_sublabels dets
    if found.isEmpty then dictGet CATEGORY_LABELS "phobic" [] else found
  else if dictMem PHOBIC_CANON k then [dictGet PHOBIC_CANON k ""]
  else if dictMem CATEGORY_LABELS k then dictGet CATEGORY_LABELS k []
  else [k_raw]

/-- One `add_labels(key, mode)` step over the `(blur, red, skip)`
accumulators (redaction_stream.py:389–422). -/
def addLabels (dets : List StoredDet) (acc : List String × List String × List String)
    (kv : String × String) : List String × List String × List String :=
  let mode_l := lowerStr (stripStr kv.2)
  if mode_l = "blur" ∨ mode_l = "red" ∨ mode_l = "skip" then
    let lbls := resolveKey dets kv.1
    if mode_l = "blur" then (acc.1 ++ lbls, acc.2.1, acc.2.2)
    else if mode_l = "red" then (acc.1, acc.2.1 ++ lbls, acc.2.2)
    else (acc.1, acc.2.1, acc.2.2 ++ lbls)
  else acc

/-- `_labels_from_mode_map` (redaction_stream.py:386–428). -/
def labelsFromModeMap (dets : List StoredDet) (mode_map : List (String × String)) :
    List String × List String × List String :=
  let acc := mode_map.foldl (addLabels dets) ([], [], [])
  (mkuniq acc.1, mkuniq acc.2.1, mkuniq acc.2.2)

end Censorly

namespace Censorly

/-- The `mode_map` entries routed to bucket `m`. -/
def entriesWithMode (mm : List (String × String)) (m : String) : List (String × String) :=
  mm.filter (fun kv => lowerStr (stripStr kv.2) = m)

theorem mem_mkuniq {a : String} {xs : List String} : a ∈ mkuniq xs ↔ a ∈ xs := by
  rw [mkuniq, (List.perm_insertionSort _ _).mem_iff, List.mem_dedup]

theorem foldl_addLabels_spec (dets : List StoredDet) (mm : List (String × String))
    (acc : List String × List String × List String) :
    mm.foldl (addLabels dets) acc =
      (acc.1 ++ (entriesWithMode mm "blur").flatMap (fun kv => resolveKey dets kv.1),
       acc.2.1 ++ (entriesWithMode mm "red").flatMap (fun kv => resolveKey dets kv.1),
       acc.2.2 ++ (entriesWithMode mm "skip").flatMap (fun kv => resolveKey dets kv.1)) := by
  induction mm generalizing acc with
  | nil => simp [entriesWithMode]
  | cons kv rest ih =>
      rw [List.foldl_cons, ih]
      by_cases hb : lowerStr (stripStr kv.2) = "blur"
      · rw [addLabels, if_pos (Or.inl hb), if_pos hb]
        simp [entriesWithMode, List.filter_cons, hb]
      · by_cases hr : lowerStr (stripStr kv.2) = "red"
        · rw [addLabels, if_pos (Or.inr (Or.inl hr)), if_neg hb, if_pos hr]
          simp [entriesWithMode, List.filter_cons, hr]
        · by_cases hs : lowerStr (stripStr kv.2) = "skip"
          · rw [addLabels, if_pos (Or.inr (Or.inr hs)), if_neg hb, if_neg hr]
            simp [entriesWithMode, List.filter_cons, hs]
          · rw [addLabels, if_neg (by simp [hb, hr, hs])]
            simp [entriesWithMode, List.filter_cons, hb, hr, hs]

theorem resolveKey_ne_nil (dets : List StoredDet) (k : String) :
    resolveKey dets k ≠ [] := by
  have hget : ∀ q, dictMem CATEGORY_LABELS q = true → dictGet CATEGORY_LABELS q [] ≠ [] := by
    intro q hq
    have htable : ∀ p ∈ CATEGORY_LABELS, p.2 ≠ [] := by decide
    rcases hfind : CATEGORY_LABELS.find? (fun p => p.1 = q) with _ | p
    · rw [dictMem, hfind] at hq
      simp at hq
    · have hp := List.mem_of_find?_eq_some hfind
      rw [dictGet, dictFind, hfind]
      simpa using htable p hp
  have hphobic : dictGet CATEGORY_LABELS "phobic" [] ≠ [] := by decide
  have hnud : dictGet CATEGORY_LABELS "nudity" [] ≠ [] := by decide
  rw [resolveKey]
  split_ifs with h1 h2 h3 h4 h5
  · dsimp only
    split
    · simp
    · exact hphobic
  · exact hnud
  · dsimp only
    split
    · exact hphobic
    · rename_i hfound
      exact fun hc => hfound (by simp [hc])
  · simp
  · exact hget _ h5
  · simp

theorem labelsFromModeMap_mem (dets : List StoredDet) (mm : List (String × String))
    (lab : String) :
    (lab ∈ (labelsFromModeMap dets mm).1 ↔
       ∃ kv ∈ entriesWithMode mm "blur", lab ∈ resolveKey dets kv.1) ∧
    (lab ∈ (labelsFromModeMap dets mm).2.1 ↔
       ∃ kv ∈ entriesWithMode mm "red", lab ∈ resolveKey dets kv.1) ∧
    (lab ∈ (labelsFromModeMap dets mm).2.2 ↔
       ∃ kv ∈ entriesWithMode mm "skip", lab ∈ resolveKey dets kv.1) := by
  rw [labelsFromModeMap]
  rw [foldl_addLabels_spec]
  simp [mem_mkuniq, List.mem_flatMap]

/-- C4 counterexample: `mode_map = {"nudity": "blur", "obscene": "skip"}`
routes both keys to known modes, yet the label `"nudenet"` (both keys
resolve to the nudity detector's internal label) lands in the blur list
and the cut list simultaneously. -/
theorem c4_counterexample :
    "nudenet" ∈ (labelsFromModeMap [] [("nudity", "blur"), ("obscene", "skip")]).1 ∧
    "nudenet" ∈ (labelsFromModeMap [] [("nudity", "blur"), ("obscene", "skip")]).2.2 := by
  constructor <;> decide

/-- C4 (amended): for every `mode_map` whose keys are each routed to a
known mode (blur, red, skip), the union of the returned lists is
non-empty and every resolved label lands in at least one list; and
provided no two keys routed to different modes resolve to a common label
(which `nudity`/`obscene`, or a duplicated phobia sub-label, can violate),
no label appears in two of the three lists. -/
theorem c4_labels_from_mode_map (dets : List StoredDet) (mm : List (String × String))
    (hmodes : ∀ kv ∈ mm, lowerStr (stripStr kv.2) ∈ (["blur", "red", "skip"] : List String))
    (hne : mm ≠ []) :
    (((labelsFromModeMap dets mm).1 ++ (labelsFromModeMap dets mm).2.1 ++
       (labelsFromModeMap dets mm).2.2) ≠ []) ∧
    (∀ kv ∈ mm, ∀ lab ∈ resolveKey dets kv.1,
       lab ∈ (labelsFromModeMap dets mm).1 ∨ lab ∈ (labelsFromModeMap dets mm).2.1 ∨
       lab ∈ (labelsFromModeMap dets mm).2.2) ∧
    ((∀ kv1 ∈ mm, ∀ kv2 ∈ mm,
       lowerStr (stripStr kv1.2) ≠ lowerStr (stripStr kv2.2) →
       ∀ lab ∈ resolveKey dets kv1.1, lab ∉ resolveKey dets kv2.1) →
     ∀ lab : String,
       ¬(lab ∈ (labelsFromModeMap dets mm).1 ∧ lab ∈ (labelsFromModeMap dets mm).2.1) ∧
       ¬(lab ∈ (labelsFromModeMap dets mm).1 ∧ lab ∈ (labelsFromModeMap dets mm).2.2) ∧
       ¬(lab ∈ (labelsFromModeMap dets mm).2.1 ∧ lab ∈ (labelsFromModeMap dets mm).2.2)) := by
  have hmem := labelsFromModeMap_mem dets mm
  have hbucket : ∀ kv ∈ mm, ∀ lab ∈ resolveKey dets kv.1,
      lab ∈ (labelsFromModeMap dets mm).1 ∨ lab ∈ (labelsFromModeMap dets mm).2.1 ∨
      lab ∈ (labelsFromModeMap dets mm).2.2 := by
    intro kv hkv lab hlab
    have hm0 := hmodes kv hkv
    simp only [List.mem_cons, List.not_mem_nil, or_false] at hm0
    rcases hm0 with hm | hm | hm
    · exact Or.inl ((hmem lab).1.mpr
        ⟨kv, List.mem_filter.mpr ⟨hkv, by simp [hm]⟩, hlab⟩)
    · exact Or.inr (Or.inl ((hmem lab).2.1.mpr
        ⟨kv, List.mem_filter.mpr ⟨hkv, by simp [hm]⟩, hlab⟩))
    · exact Or.inr (Or.inr ((hmem lab).2.2.mpr
        ⟨kv, List.mem_filter.mpr ⟨hkv, by simp [hm]⟩, hlab⟩))
  refine ⟨?_, hbucket, ?_⟩
  · cases mm with
    | nil => exact absurd rfl hne
    | cons kv rest =>
        intro hempty
        rcases List.append_eq_nil.mp hempty with ⟨h12, h3⟩
        rcases List.append_eq_nil.mp h12 with ⟨h1, h2⟩
        obtain ⟨lab, hlab⟩ := List.exists_mem_of_ne_nil _
          (resolveKey_ne_nil dets kv.1)
        rcases hbucket kv (List.mem_cons_self _ _) lab hlab with h | h | h
        · rw [h1] at h; simp at h
        · rw [h2] at h; simp at h
        · rw [h3] at h; simp at h
  · intro hdisj lab
    have hpair : ∀ (m1 m2 : String), m1 ≠ m2 →
        ¬((∃ kv ∈ entriesWithMode mm m1, lab ∈ resolveKey dets kv.1) ∧
          (∃ kv ∈ entriesWithMode mm m2, lab ∈ resolveKey dets kv.1)) := by
      rintro m1 m2 hm ⟨⟨kv1, hkv1, hl1⟩, ⟨kv2, hkv2, hl2⟩⟩
      obtain ⟨hkv1m, hkv1f⟩ := List.mem_filter.mp hkv1
      obtain ⟨hkv2m, hkv2f⟩ := List.mem_filter.mp hkv2
      rw [decide_eq_true_eq] at hkv1f hkv2f
      exact hdisj kv1 hkv1m kv2 hkv2m (by rw [hkv1f, hkv2f]; exact hm) lab hl1 hl2
    refine ⟨?_, ?_, ?_⟩
    · rw [(hmem lab).1, (hmem lab).2.1]
      exact hpair "blur" "red" (by decide)
    · rw [(hmem lab).1, (hmem lab).2.2]
      exact hpair "blur" "skip" (by decide)
    · rw [(hmem lab).2.1, (hmem lab).2.2]
      exact hpair "red" "skip" (by decide)

/-- Witness for C4: `{"blood": "blur", "alcohol": "skip"}` — two known
modes whose resolved labels (`blood` vs `alcohol`) are disjoint. -/
theorem c4_labels_from_mode_map_witness :
    (((labelsFromModeMap [] [("blood", "blur"), ("alcohol", "skip")]).1 ++
       (labelsFromModeMap [] [("blood", "blur"), ("alcohol", "skip")]).2.1 ++
       (labelsFromModeMap [] [("blood", "blur"), ("alcohol", "skip")]).2.2) ≠ []) ∧
    ("blood" ∈ (labelsFromModeMap [] [("blood", "blur"), ("alcohol", "skip")]).1 ∨
     "blood" ∈ (labelsFromModeMap [] [("blood", "blur"), ("alcohol", "skip")]).2.1 ∨
     "blood" ∈ (labelsFromModeMap [] [("blood", "blur"), ("alcohol", "skip")]).2.2) ∧
    ¬("blood" ∈ (labelsFromModeMap [] [("blood", "blur"), ("alcohol", "skip")]).1 ∧
      "blood" ∈ (labelsFromModeMap [] [("blood", "blur"), ("alcohol", "skip")]).2.2) :=
  have h := c4_labels_from_mode_map [] [("blood", "blur"), ("alcohol", "skip")]
    (by decide) (by decide)
  ⟨h.1, h.2.1 ("blood", "blur") (by decide) "blood" (by decide),
    (h.2.2 (by decide) "blood").2.1⟩

end Censorly

namespace Censorly

/-!
## C5 — the Analysis Orchestrator and `generate_thresholds`
Source: `src/ai/inference/pipeline_analyze.py`, lines 132–279 (`run`) and
308 (`--generate-thresholds`).

`run` is embedded as the sequence of externally visible effects it
performs, over the per-frame detector outputs (the sampler and the
detectors themselves are the external world).  The effect vocabulary
includes a `deriveThresholds` constructor so that the claimed invocation
of the Adaptive Threshold Deriver is expressible; `run`'s body never
reads its `generate_thresholds` parameter, so no code path produces it.
-/

/-- `canonicalize_label` (pipeline_analyze.py:66–76): `sub_label or
detector_label`, then fall back to the detector's base label whenever the
raw name is outside the vocabulary. -/
def canonicalize_label (detector_label : String) (sub_label : Option String) :
    String × String :=
  let raw := match sub_label with
    | some s => if s ≠ "" then s else detector_label
    | none => detector_label
  let canon0 := if raw ∈ ALLOWED_LABELS then raw else detector_label
  let canon := if canon0 ∉ ALLOWED_LABELS then detector_label else canon0
  (canon, raw)

/-- `_fallback_per_label` (pipeline_analyze.py:171). -/
def fallback_per_label : List (String × ℚ) :=
  [("violence", 0.4), ("blood", 0.15), ("alcohol", 0.25), ("phobic", 0.10), ("obscene", 0.30)]

/-- One raw prediction of one detector on one frame (`infer_one` output). -/
structure Pred where
  sub_label : Option String
  score : ℚ
  bbox : List ℚ
  track_id : Option Int

/-- A JSONL row the orchestrator writes (pipeline_analyze.py:214–221). -/
structure AnalyzeEvent where
  ts_ms : Int
  label : String
  score : ℚ
  bbox : List ℚ
  track_id : Option Int
  raw_label : String
  deriving DecidableEq

/-- The orchestrator's configuration as far as effects are concerned. -/
structure RunConfig where
  api : Bool                     -- post_url and job_id both provided
  batch_size : Nat
  min_conf_map : List (String × ℚ)
  conf : ℚ                       -- global default floor
  generate_thresholds : Bool

/-- An externally visible effect of one `run` invocation. -/
inductive RunEffect where
  | apiStart
  | jsonlAppend (events : List AnalyzeEvent)
  | apiIngest (batch : List AnalyzeEvent)
  | apiFinish (status : String)
  | deriveThresholds (classes : List String)

/-- The `frame_events` kept for one frame (pipeline_analyze.py:196–222):
canonicalize, resolve the (label, sub-label) floor, keep iff
`score ≥ floor`. -/
def frameEvents (cfg : RunConfig) (ts : Int) (preds : List (String × Pred)) :
    List AnalyzeEvent :=
  preds.filterMap (fun dp =>
    let c := canonicalize_label dp.1 dp.2.sub_label
    let mn := resolve_min_conf cfg.min_conf_map c.1 dp.2.sub_label
      (dictGet fallback_per_label c.1 cfg.conf)
    if dp.2.score < mn then none
    else some { ts_ms := ts, label := c.1, score := dp.2.score,
                bbox := dp.2.bbox, track_id := dp.2.track_id, raw_label := c.2 })

/-- One frame step of `run`'s main loop (pipeline_analyze.py:195–245):
write the kept events to the JSONL file, buffer the vocabulary-labelled
ones, flush an ingest batch when the buffer reaches `batch_size`. -/
def runStep (cfg : RunConfig) (st : List AnalyzeEvent × List RunEffect)
    (fr : Int × List (String × Pred)) : List AnalyzeEvent × List RunEffect :=
  let evs := frameEvents cfg fr.1 fr.2
  let fx := st.2 ++ [RunEffect.jsonlAppend evs]
  let buf := st.1 ++ evs.filter (fun e => e.label ∈ ALLOWED_LABELS)
  if cfg.api ∧ buf.length ≥ cfg.batch_size then ([], fx ++ [RunEffect.apiIngest buf])
  else (buf, fx)

/-- The effect trace of a successful `run` (pipeline_analyze.py:132–279):
start notification, the per-frame loop, the final buffer flush, the
`finish(done)` notification — and nothing else.  The body never consults
`cfg.generate_thresholds`. -/
def runEffects (cfg : RunConfig) (frames : List (Int × List (String × Pred))) :
    List RunEffect :=
  let startFx := if cfg.api then [RunEffect.apiStart] else []
  let st := frames.foldl (runStep cfg) ([], startFx)
  let fx := if cfg.api ∧ st.1 ≠ [] then st.2 ++ [RunEffect.apiIngest st.1] else st.2
  fx ++ (if cfg.api then [RunEffect.apiFinish "done"] else [])

/-- No effect produced anywhere in `run` is a deriver invocation. -/
def isDerive : RunEffect → Bool
  | .deriveThresholds _ => true
  | _ => false

theorem runStep_no_derive (cfg : RunConfig) (st : List AnalyzeEvent × List RunEffect)
    (fr : Int × List (String × Pred))
    (h : ∀ e ∈ st.2, isDerive e = false) :
    ∀ e ∈ (runStep cfg st fr).2, isDerive e = false := by
  intro e he
  rw [runStep] at he
  split at he <;> simp only [List.mem_append, List.mem_singleton] at he
  · rcases he with (he | rfl) | rfl
    · exact h e he
    · rfl
    · rfl
  · rcases he with he | rfl
    · exact h e he
    · rfl

theorem foldl_runStep_no_derive (cfg : RunConfig)
    (frames : List (Int × List (String × Pred)))
    (st : List AnalyzeEvent × List RunEffect)
    (h : ∀ e ∈ st.2, isDerive e = false) :
    ∀ e ∈ (frames.foldl (runStep cfg) st).2, isDerive e = false := by
  induction frames generalizing st with
  | nil => exact h
  | cons fr rest ih =>
      rw [List.foldl_cons]
      exact ih _ (runStep_no_derive cfg st fr h)

/-- C5 (refuted by the code): even with threshold generation requested
(`generate_thresholds = true`), no execution of the orchestrator's `run`
ever invokes the Adaptive Threshold Deriver — the parameter is accepted
(pipeline_analyze.py:137, `--generate-thresholds` at :308) but never read
in the body, so no thresholds file path is derived or recorded. -/
theorem c5_run_never_derives_thresholds (cfg : RunConfig)
    (frames : List (Int × List (String × Pred)))
    (hgen : cfg.generate_thresholds = true) :
    ∀ classes, RunEffect.deriveThresholds classes ∉ runEffects cfg frames := by
  intro classes hmem
  suffices hall : ∀ e ∈ runEffects cfg frames, isDerive e = false by
    have hd := hall _ hmem
    simp [isDerive] at hd
  intro e he
  rw [runEffects] at he
  by_cases hapi : cfg.api = true
  · simp only [hapi, if_true, true_and, List.mem_append] at he
    have hinit : ∀ x ∈ (([], [RunEffect.apiStart]) :
        List AnalyzeEvent × List RunEffect).2, isDerive x = false := by
      intro x hx
      simp only [List.mem_singleton] at hx
      subst hx
      rfl
    rcases he with he | he
    · split at he
      · simp only [List.mem_append, List.mem_singleton] at he
        rcases he with he | rfl
        · exact foldl_runStep_no_derive cfg frames _ hinit e he
        · rfl
      · exact foldl_runStep_no_derive cfg frames _ hinit e he
    · simp only [List.mem_singleton] at he
      subst he
      rfl
  · simp only [hapi, if_false, false_and, List.append_nil, Bool.false_eq_true] at he
    exact foldl_runStep_no_derive cfg frames ([], [])
      (by intro x hx; simp at hx) e he

/-- Witness for C5: a concrete configuration with
`generate_thresholds = true` (the Videos/Uploads Routers' invocation
shape) produces no `blood, alcohol` deriver call. -/
theorem c5_run_never_derives_thresholds_witness :
    RunEffect.deriveThresholds ["blood", "alcohol"] ∉
      runEffects ⟨true, 200, [("blood", 0.15)], 0.5, true⟩ [] :=
  c5_run_never_derives_thresholds ⟨true, 200, [("blood", 0.15)], 0.5, true⟩ [] rfl
    ["blood", "alcohol"]

end Censorly

namespace Censorly

/-!
## C9 — `_invert_to_keep`
Source: `src/apps/api/services/redaction_stream.py`, lines 77–80
(`Interval`) and 130–141 (`_invert_to_keep`).
-/

/-- `Interval` (redaction_stream.py:77–80): a millisecond span. -/
structure Interval where
  start_ms : Int
  end_ms : Int
  deriving DecidableEq

/-- The loop body of `_invert_to_keep` (redaction_stream.py:134–138):
emit the gap before each skip, advancing `cur = max(cur, s.end_ms)`. -/
def invertGo (cur : Int) : List Interval → List Interval
  | [] => []
  | s :: rest =>
      (if s.start_ms > cur then [⟨cur, s.start_ms⟩] else []) ++
        invertGo (max cur s.end_ms) rest

/-- The final value of `cur` after the loop. -/
def finalCur (cur : Int) (skips : List Interval) : Int :=
  skips.foldl (fun c s => max c s.end_ms) cur

/-- `_invert_to_keep` (redaction_stream.py:130–141). -/
def invertToKeep (total_ms : Int) (skips : List Interval) : List Interval :=
  if total_ms ≤ 0 then []
  else if skips.isEmpty then [⟨0, total_ms⟩]
  else
    (invertGo 0 skips ++
        (if finalCur 0 skips < total_ms
         then [(⟨finalCur 0 skips, total_ms⟩ : Interval)] else [])).filter
      (fun iv => iv.end_ms > iv.start_ms)

/-- `t` lies in the half-open span of `iv`. -/
def memIv (t : Int) (iv : Interval) : Prop :=
  iv.start_ms ≤ t ∧ t < iv.end_ms

/-- Two intervals share no point. -/
def ivDisj (a b : Interval) : Prop := ∀ t : Int, ¬(memIv t a ∧ memIv t b)

theorem ivDisj_of_le {a b : Interval} (h : a.end_ms ≤ b.start_ms) : ivDisj a b := by
  rintro t ⟨ha, hb⟩
  exact absurd (lt_of_lt_of_le ha.2 (le_trans h hb.1)) (lt_irrefl t)

theorem ivDisj_symm {a b : Interval} (h : ivDisj a b) : ivDisj b a :=
  fun t ⟨hb, ha⟩ => h t ⟨ha, hb⟩

theorem chain_head_le (rest : List Interval) (s : Interval)
    (hchain : List.Chain' (fun a b => a.end_ms ≤ b.start_ms) (s :: rest))
    (hb : ∀ x ∈ rest, x.start_ms ≤ x.end_ms) :
    ∀ r ∈ rest, s.end_ms ≤ r.start_ms := by
  induction rest generalizing s with
  | nil => simp
  | cons b rest ih =>
      intro r hr
      have h1 : s.end_ms ≤ b.start_ms := (List.chain'_cons.mp hchain).1
      rcases List.mem_cons.mp hr with rfl | hr
      · exact h1
      · have h2 := ih b (List.chain'_cons.mp hchain).2
          (fun x hx => hb x (List.mem_cons_of_mem _ hx)) r hr
        have hbb := hb b (List.mem_cons_self _ _)
        linarith

theorem le_finalCur (cur : Int) (skips : List Interval) :
    cur ≤ finalCur cur skips := by
  induction skips generalizing cur with
  | nil => exact le_refl _
  | cons s rest ih =>
      exact le_trans (le_max_left _ _) (ih (max cur s.end_ms))

theorem finalCur_le (cur M : Int) (skips : List Interval)
    (hc : cur ≤ M) (h : ∀ s ∈ skips, s.end_ms ≤ M) :
    finalCur cur skips ≤ M := by
  induction skips generalizing cur with
  | nil => exact hc
  | cons s rest ih =>
      exact ih _ (max_le hc (h s (List.mem_cons_self _ _)))
        (fun x hx => h x (List.mem_cons_of_mem _ hx))

theorem end_le_finalCur (cur : Int) (skips : List Interval) :
    ∀ s ∈ skips, s.end_ms ≤ finalCur cur skips := by
  induction skips generalizing cur with
  | nil => simp
  | cons s rest ih =>
      intro x hx
      rcases List.mem_cons.mp hx with rfl | hx
      · exact le_trans (le_max_right cur x.end_ms) (le_finalCur _ _)
      · exact ih _ x hx

theorem invertGo_ranges (cur : Int) (skips : List Interval)
    (hstart : ∀ s ∈ skips, cur ≤ s.start_ms)
    (hse : ∀ s ∈ skips, s.start_ms ≤ s.end_ms)
    (hchain : List.Chain' (fun a b => a.end_ms ≤ b.start_ms) skips) :
    ∀ iv ∈ invertGo cur skips,
      cur ≤ iv.start_ms ∧ iv.start_ms ≤ iv.end_ms ∧
        iv.end_ms ≤ finalCur cur skips := by
  induction skips generalizing cur with
  | nil => simp [invertGo]
  | cons s rest ih =>
      intro iv hiv
      have hs1 := hstart s (List.mem_cons_self _ _)
      have hs2 := hse s (List.mem_cons_self _ _)
      have hrest : ∀ r ∈ rest, max cur s.end_ms ≤ r.start_ms := by
        intro r hr
        refine max_le (le_trans (hstart r (List.mem_cons_of_mem _ hr)) (le_refl _)) ?_
        exact chain_head_le rest s hchain
          (fun x hx => hse x (List.mem_cons_of_mem _ hx)) r hr
      rw [invertGo] at hiv
      rcases List.mem_append.mp hiv with hgap | htail
      · have hpos : s.start_ms > cur := by
          by_contra hno
          rw [if_neg hno] at hgap
          exact absurd hgap (List.not_mem_nil iv)
        rw [if_pos hpos, List.mem_singleton] at hgap
        subst hgap
        refine ⟨le_refl _, le_of_lt hpos, ?_⟩
        calc s.start_ms ≤ s.end_ms := hs2
          _ ≤ max cur s.end_ms := le_max_right _ _
          _ ≤ finalCur (max cur s.end_ms) rest := le_finalCur _ _
      · have h3 := ih (max cur s.end_ms) hrest
          (fun x hx => hse x (List.mem_cons_of_mem _ hx))
          (List.chain'_cons'.mp hchain).2 iv htail
        refine ⟨le_trans (le_trans hs1 hs2) (le_trans (le_max_right _ _) h3.1), h3.2.1, h3.2.2⟩

theorem invertGo_cover (cur : Int) (skips : List Interval)
    (hstart : ∀ s ∈ skips, cur ≤ s.start_ms)
    (hse : ∀ s ∈ skips, s.start_ms ≤ s.end_ms)
    (hchain : List.Chain' (fun a b => a.end_ms ≤ b.start_ms) skips) :
    ∀ t : Int, cur ≤ t → t < finalCur cur skips →
      (∃ iv ∈ invertGo cur skips, memIv t iv) ∨ (∃ s ∈ skips, memIv t s) := by
  induction skips generalizing cur with
  | nil =>
      intro t h1 h2
      rw [finalCur] at h2
      simp at h2
      exact absurd (lt_of_le_of_lt h1 h2) (lt_irrefl _)
  | cons s rest ih =>
      intro t hct hfin
      have hs1 := hstart s (List.mem_cons_self _ _)
      have hs2 := hse s (List.mem_cons_self _ _)
      by_cases h1 : t < s.start_ms
      · left
        have hpos : s.start_ms > cur := lt_of_le_of_lt hct h1
        refine ⟨⟨cur, s.start_ms⟩, ?_, hct, h1⟩
        rw [invertGo, if_pos hpos]
        simp
      · by_cases h2 : t < s.end_ms
        · exact Or.inr ⟨s, List.mem_cons_self _ _, not_lt.mp h1, h2⟩
        · have hrest : ∀ r ∈ rest, max cur s.end_ms ≤ r.start_ms := by
            intro r hr
            refine max_le (hstart r (List.mem_cons_of_mem _ hr)) ?_
            exact chain_head_le rest s hchain
              (fun x hx => hse x (List.mem_cons_of_mem _ hx)) r hr
          have hct' : max cur s.end_ms ≤ t := max_le hct (not_lt.mp h2)
          rcases ih (max cur s.end_ms) hrest
            (fun x hx => hse x (List.mem_cons_of_mem _ hx))
            (List.chain'_cons'.mp hchain).2 t hct' hfin with ⟨iv, hiv, hmem⟩ | ⟨r, hr, hmem⟩
          · refine Or.inl ⟨iv, ?_, hmem⟩
            rw [invertGo]
            exact List.mem_append.mpr (Or.inr hiv)
          · exact Or.inr ⟨r, List.mem_cons_of_mem _ hr, hmem⟩

end Censorly

namespace Censorly

theorem ivDisj_symmetric : Symmetric ivDisj := fun _ _ h => ivDisj_symm h

theorem invertGo_pairwise (cur : Int) (skips : List Interval)
    (hstart : ∀ s ∈ skips, cur ≤ s.start_ms)
    (hse : ∀ s ∈ skips, s.start_ms ≤ s.end_ms)
    (hchain : List.Chain' (fun a b => a.end_ms ≤ b.start_ms) skips) :
    List.Pairwise ivDisj (invertGo cur skips ++ skips) := by
  induction skips generalizing cur with
  | nil => simp [invertGo]
  | cons s rest ih =>
      have hs1 := hstart s (List.mem_cons_self _ _)
      have hs2 := hse s (List.mem_cons_self _ _)
      have hseR : ∀ x ∈ rest, x.start_ms ≤ x.end_ms :=
        fun x hx => hse x (List.mem_cons_of_mem _ hx)
      have hheads : ∀ r ∈ rest, s.end_ms ≤ r.start_ms :=
        chain_head_le rest s hchain hseR
      have hrest : ∀ r ∈ rest, max cur s.end_ms ≤ r.start_ms :=
        fun r hr => max_le (hstart r (List.mem_cons_of_mem _ hr)) (hheads r hr)
      have hIH := ih (max cur s.end_ms) hrest hseR (List.chain'_cons'.mp hchain).2
      have hGoRanges := invertGo_ranges (max cur s.end_ms) rest hrest hseR
        (List.chain'_cons'.mp hchain).2
      rw [invertGo, List.append_assoc, List.pairwise_append]
      refine ⟨?_, ?_, ?_⟩
      · split_ifs
        · exact List.pairwise_singleton _ _
        · exact List.Pairwise.nil
      · rw [List.pairwise_middle (fun h => ivDisj_symm h), List.pairwise_cons]
        refine ⟨?_, hIH⟩
        intro x hx
        rcases List.mem_append.mp hx with hx | hx
        · exact ivDisj_of_le (le_trans (le_max_right cur s.end_ms) (hGoRanges x hx).1)
        · exact ivDisj_of_le (hheads x hx)
      · intro a ha b hb
        have hgap : a = ⟨cur, s.start_ms⟩ ∧ s.start_ms > cur := by
          by_cases hpos : s.start_ms > cur
          · rw [if_pos hpos, List.mem_singleton] at ha
            exact ⟨ha, hpos⟩
          · rw [if_neg hpos] at ha
            exact absurd ha (List.not_mem_nil a)
        obtain ⟨rfl, _⟩ := hgap
        rcases List.mem_append.mp hb with hb | hb
        · exact ivDisj_of_le (le_trans hs2
            (le_trans (le_max_right cur s.end_ms) (hGoRanges b hb).1))
        · rcases List.mem_cons.mp hb with rfl | hb
          · exact ivDisj_of_le (le_refl _)
          · exact ivDisj_of_le (le_trans hs2 (hheads b hb))

/-- C9: for a positive duration `D` and sorted, pairwise-disjoint skip
intervals inside `[0, D]`, the keep intervals of `_invert_to_keep`
together with the skip intervals cover `[0, D)` exactly — every instant
lies in the union, every covered instant is in `[0, D)`, no two of the
intervals overlap — and with no skips the single keep interval is
`[0, D]`. -/
theorem c9_invert_to_keep (D : Int) (skips : List Interval)
    (hD : 0 < D)
    (hbound : ∀ s ∈ skips, 0 ≤ s.start_ms ∧ s.start_ms ≤ s.end_ms ∧ s.end_ms ≤ D)
    (hchain : List.Chain' (fun a b => a.end_ms ≤ b.start_ms) skips) :
    (∀ t : Int, (0 ≤ t ∧ t < D) ↔ ∃ iv ∈ invertToKeep D skips ++ skips, memIv t iv) ∧
    List.Pairwise ivDisj (invertToKeep D skips ++ skips) ∧
    (skips = [] → invertToKeep D skips = [⟨0, D⟩]) := by
  have hD' : ¬ D ≤ 0 := not_le.mpr hD
  by_cases hnil : skips = []
  · subst hnil
    have hval : invertToKeep D [] = [⟨0, D⟩] := by
      rw [invertToKeep, if_neg hD', if_pos (by simp)]
    refine ⟨?_, ?_, fun _ => hval⟩
    · intro t
      rw [hval]
      simp [memIv]
    · rw [hval]
      simp
  · have hstart0 : ∀ s ∈ skips, (0 : Int) ≤ s.start_ms := fun s hs => (hbound s hs).1
    have hse : ∀ s ∈ skips, s.start_ms ≤ s.end_ms := fun s hs => (hbound s hs).2.1
    have hendD : ∀ s ∈ skips, s.end_ms ≤ D := fun s hs => (hbound s hs).2.2
    have hfin0 : (0 : Int) ≤ finalCur 0 skips := le_finalCur 0 skips
    have hfinD : finalCur 0 skips ≤ D := finalCur_le 0 D skips (le_of_lt hD) hendD
    have hranges := invertGo_ranges 0 skips hstart0 hse hchain
    have hval : invertToKeep D skips =
        (invertGo 0 skips ++
          (if finalCur 0 skips < D
           then [(⟨finalCur 0 skips, D⟩ : Interval)] else [])).filter
          (fun iv => iv.end_ms > iv.start_ms) := by
      rw [invertToKeep, if_neg hD', if_neg (by simp [hnil])]
    refine ⟨?_, ?_, fun h => absurd h hnil⟩
    · intro t
      constructor
      · rintro ⟨h0, hD2⟩
        by_cases ht : t < finalCur 0 skips
        · rcases invertGo_cover 0 skips hstart0 hse hchain t h0 ht with
            ⟨iv, hiv, hm⟩ | ⟨s, hs, hm⟩
          · refine ⟨iv, List.mem_append.mpr (Or.inl ?_), hm⟩
            rw [hval]
            refine List.mem_filter.mpr ⟨List.mem_append.mpr (Or.inl hiv), ?_⟩
            simpa using lt_of_le_of_lt hm.1 hm.2
          · exact ⟨s, List.mem_append.mpr (Or.inr hs), hm⟩
        · have hft : finalCur 0 skips ≤ t := not_lt.mp ht
          have hfd : finalCur 0 skips < D := lt_of_le_of_lt hft hD2
          refine ⟨⟨finalCur 0 skips, D⟩, List.mem_append.mpr (Or.inl ?_), hft, hD2⟩
          rw [hval]
          refine List.mem_filter.mpr ⟨List.mem_append.mpr (Or.inr ?_), by simpa using hfd⟩
          rw [if_pos hfd]
          exact List.mem_singleton_self _
      · rintro ⟨iv, hiv, hm⟩
        rcases List.mem_append.mp hiv with hk | hs
        · rw [hval] at hk
          rcases List.mem_append.mp (List.mem_filter.mp hk).1 with hgo | htl
          · have hr := hranges iv hgo
            exact ⟨le_trans hr.1 hm.1, lt_of_lt_of_le hm.2 (le_trans hr.2.2 hfinD)⟩
          · have : iv = ⟨finalCur 0 skips, D⟩ := by
              by_cases hfd : finalCur 0 skips < D
              · rw [if_pos hfd, List.mem_singleton] at htl
                exact htl
              · rw [if_neg hfd] at htl
                exact absurd htl (List.not_mem_nil iv)
            subst this
            exact ⟨le_trans hfin0 hm.1, hm.2⟩
        · have hb := hbound iv hs
          exact ⟨le_trans hb.1 hm.1, lt_of_lt_of_le hm.2 hb.2.2⟩
    · have hpw := invertGo_pairwise 0 skips hstart0 hse hchain
      have hbig : List.Pairwise ivDisj
          ((invertGo 0 skips ++
            (if finalCur 0 skips < D
             then [(⟨finalCur 0 skips, D⟩ : Interval)] else [])) ++ skips) := by
        by_cases hfd : finalCur 0 skips < D
        · rw [if_pos hfd, List.append_assoc, List.singleton_append,
            List.pairwise_middle (fun h => ivDisj_symm h), List.pairwise_cons]
          refine ⟨?_, hpw⟩
          intro x hx
          rcases List.mem_append.mp hx with hx | hx
          · exact ivDisj_symm (ivDisj_of_le (hranges x hx).2.2)
          · exact ivDisj_symm (ivDisj_of_le (end_le_finalCur 0 skips x hx))
        · rw [if_neg hfd, List.append_nil]
          exact hpw
      have hsub : (invertToKeep D skips ++ skips).Sublist
          ((invertGo 0 skips ++
            (if finalCur 0 skips < D
             then [(⟨finalCur 0 skips, D⟩ : Interval)] else [])) ++ skips) := by
        rw [hval]
        exact (List.filter_sublist _).append_right skips
      exact hbig.sublist hsub

/-- Witness for C9: `D = 10000` with the single skip `[2000, 4000]`. -/
theorem c9_invert_to_keep_witness :
    (∃ iv ∈ invertToKeep 10000 [⟨2000, 4000⟩] ++ [⟨2000, 4000⟩], memIv 500 iv) ∧
    List.Pairwise ivDisj (invertToKeep 10000 [⟨2000, 4000⟩] ++ [⟨2000, 4000⟩]) :=
  have h := c9_invert_to_keep 10000 [⟨2000, 4000⟩] (by norm_num)
    (by intro s hs; rw [List.mem_singleton] at hs; subst hs; refine ⟨by norm_num, by norm_num, by norm_num⟩)
    (List.chain'_singleton _)
  ⟨(h.1 500).mp ⟨by norm_num, by norm_num⟩, h.2.1⟩

end Censorly

namespace Censorly

/-!
## C3 — Stream-service skip intervals vs. renderer skip intervals
Sources: `src/apps/api/services/redaction_stream.py` lines 82–92
(`_merge_intervals`) and 106–128 (`_calc_skip_intervals`);
`src/ai/inference/pipeline_redact.py` lines 35–42 (`_ms_lookup`), 70–104
(`load_events`), 118–133 (geometry), 146–208 (`build_segments_multi`),
397–414 (bucket routing and keyframe filter) and 417–430
(`_merge_and_thresh`).

Both sides are embedded over the same JSONL record type.  Floats are `ℚ`;
`** 0.5` is `Rat.sqrt` (exact on perfect squares — the concrete inputs
below only take square roots of `0`, and the general theorem does not
depend on the value of any square root).
-/

/-- `DEFAULT_THRESH` (redaction_stream.py:19). -/
def DEFAULT_THRESH : ℚ := 0.40

/-- One JSONL detection record as both skip computations read it. -/
structure JEvent where
  ts_ms : Int
  label : Option String
  score : Option ℚ
  bbox : Option (List ℚ)
  raw_label : Option String

/-- `sorted(ints, key=lambda x: x.start_ms)` — a stable sort by start. -/
def sortByStart (ints : List Interval) : List Interval :=
  ints.insertionSort (fun a b => a.start_ms ≤ b.start_ms)

/-- The merging loop of `_merge_intervals` (redaction_stream.py:85–91):
`acc` is the mutable `out[-1]`. -/
def mergeGo (join : Int) : Interval → List Interval → List Interval
  | acc, [] => [acc]
  | acc, i :: rest =>
      if i.start_ms ≤ acc.end_ms + join then
        mergeGo join ⟨acc.start_ms, max acc.end_ms i.end_ms⟩ rest
      else acc :: mergeGo join i rest

/-- `_merge_intervals` (redaction_stream.py:82–92). -/
def mergeIntervals (ints : List Interval) (join_gap_ms : Int) : List Interval :=
  match sortByStart ints with
  | [] => []
  | i :: rest => mergeGo join_gap_ms i rest

/-- `_calc_skip_intervals` (redaction_stream.py:106–128). -/
def calc_skip_intervals (events : List JEvent) (labels_skip : List String)
    (min_score_map : List (String × ℚ)) (hold_gap_ms grace_ms min_skip_ms : Int) :
    List Interval :=
  if labels_skip.isEmpty then []
  else
    let ints := events.filterMap (fun e =>
      let lab := e.label.getD ""
      if lab ∉ labels_skip then none
      else
        let sc := e.score.getD 0
        let thr := dictGet min_score_map lab (dictGet min_score_map "default" DEFAULT_THRESH)
        if sc < thr then none
        else some (⟨max 0 (e.ts_ms - grace_ms), e.ts_ms + grace_ms⟩ : Interval))
    let merged := mergeIntervals ints hold_gap_ms
    merged.filter (fun iv => iv.end_ms - iv.start_ms ≥ max 0 min_skip_ms)

/-- `_ms_lookup` (pipeline_redact.py:35–42): exact key, else first
case-insensitive key, else `default`, else the fallback. -/
def ms_lookup (msmap : List (String × ℚ)) (label : String) (fallback : ℚ) : ℚ :=
  if dictMem msmap label then dictGet msmap label 0
  else
    match msmap.find? (fun kv => lowerStr kv.1 = lowerStr label) with
    | some kv => kv.2
    | none => dictGet msmap "default" fallback

/-- `raw = str(raw).strip() if raw else None` (pipeline_redact.py:82–83). -/
def effRaw (e : JEvent) : Option String :=
  match e.raw_label with
  | some r => if r = "" then none else some (stripStr r)
  | none => none

/-- `eff_lab = raw if (lab.lower() == "phobic" and raw) else lab`
(pipeline_redact.py:84). -/
def effLabel (e : JEvent) : String :=
  let lab := stripStr (e.label.getD "")
  match effRaw e with
  | some r => if lowerStr lab = "phobic" ∧ r ≠ "" then r else lab
  | none => lab

/-- A record surviving `load_events`' filters. -/
structure REvent where
  ts_ms : Int
  label : String
  bbox : List ℚ
  score : ℚ
  deriving DecidableEq

/-- Strict code-point lexicographic `<` on character lists. -/
def charListLt : List Char → List Char → Bool
  | [], [] => false
  | [], _ :: _ => true
  | _ :: _, [] => false
  | a :: as, b :: bs =>
      if a.val < b.val then true
      else if b.val < a.val then false
      else charListLt as bs

/-- Python `a < b` on strings. -/
def strLt (a b : String) : Bool := charListLt a.data b.data

/-- The `(label, ts_ms)` ascending sort key of `load_events`
(pipeline_redact.py:102). -/
def revLe (a b : REvent) : Prop :=
  strLt a.label b.label = true ∨ (a.label = b.label ∧ a.ts_ms ≤ b.ts_ms)

instance : DecidableRel revLe := fun a b => by
  rw [revLe]; infer_instance

/-- The threshold/bbox filters of one `load_events` record
(pipeline_redact.py:89–100), after the wanted-label check. -/
def loadEventOne (min_score_map : List (String × ℚ)) (e : JEvent) : Option REvent :=
  let eff := effLabel e
  let ms := ms_lookup min_score_map eff 0.25
  let sc := e.score.getD 0
  if sc < ms then none
  else
    match e.bbox with
    | none => none
    | some bb =>
        if bb = [] then none
        else some { ts_ms := e.ts_ms, label := eff, bbox := bb, score := sc }

/-- `load_events` (pipeline_redact.py:70–104): phobic raw substitution,
wanted-label filter (case-insensitive), per-label threshold filter with
fallback `0.25`, bbox-present filter, then the `(label, ts)` sort. -/
def load_events (events : List JEvent) (wanted_lower : Option (List String))
    (min_score_map : List (String × ℚ)) : List REvent :=
  (events.filterMap (fun e =>
    match wanted_lower with
    | some w =>
        if lowerStr (effLabel e) ∈ w then loadEventOne min_score_map e else none
    | none => loadEventOne min_score_map e)).insertionSort revLe

end Censorly

namespace Censorly

/-- First-occurrence deduplication (`dict.fromkeys` key order). -/
def firstUniqAux [DecidableEq α] (seen : List α) : List α → List α
  | [] => []
  | x :: xs =>
      if x ∈ seen then firstUniqAux seen xs
      else x :: firstUniqAux (x :: seen) xs

/-- `list(dict.fromkeys(xs))`. -/
def firstUniq [DecidableEq α] (xs : List α) : List α := firstUniqAux [] xs

/-- `by_label` grouping (pipeline_redact.py:155–157): labels in
first-occurrence order, each with its events in list order. -/
def groupByLabel (events : List REvent) : List (String × List REvent) :=
  (firstUniq (events.map (·.label))).map
    (fun lab => (lab, events.filter (fun e => e.label = lab)))

/-- `sorted(ts_map.keys())` (pipeline_redact.py:161). -/
def tsKeys (evts : List REvent) : List Int :=
  (firstUniq (evts.map (·.ts_ms))).insertionSort (fun a b => a ≤ b)

/-- One tracked segment (pipeline_redact.py:185–191).  The source's id is
the string `f"{lab}-{next_id}"`; it is carried here as the label plus the
numeric `sid` (the only consumer of the id order re-sorts by span first,
so the string form is never needed downstream). -/
structure Seg where
  sid : Nat
  label : String
  start_ms : Int
  end_ms : Int
  keys : List (Int × List ℚ × ℚ)
  deriving DecidableEq

/-- `seg["keys"][-1]` (keys are non-empty by construction). -/
def segLast (seg : Seg) : Int × List ℚ × ℚ := seg.keys.getLastD (0, [], 0)

def segLastTs (seg : Seg) : Int := (segLast seg).1

/-- `bbox` as `(cx, cy, w, h)` (a short list reads as zeros; every bbox
this system writes has four entries). -/
def bb4 (b : List ℚ) : ℚ × ℚ × ℚ × ℚ :=
  (b.getD 0 0, b.getD 1 0, b.getD 2 0, b.getD 3 0)

/-- `bbox_iou` (pipeline_redact.py:118–130), with the `1e-9` union guard. -/
def bbox_iou (b1 b2 : List ℚ) : ℚ :=
  let (acx, acy, aw, ah) := bb4 b1
  let (bcx, bcy, bw, bh) := bb4 b2
  let ax1 := acx - aw / 2; let ay1 := acy - ah / 2
  let ax2 := acx + aw / 2; let ay2 := acy + ah / 2
  let bx1 := bcx - bw / 2; let by1 := bcy - bh / 2
  let bx2 := bcx + bw / 2; let by2 := bcy + bh / 2
  let iw := max 0 (min ax2 bx2 - max ax1 bx1)
  let ih := max 0 (min ay2 by2 - max ay1 by1)
  let inter := iw * ih
  let union := aw * ah + bw * bh - inter + 1 / 1000000000
  inter / union

/-- `center_dist` (pipeline_redact.py:132–133); `** 0.5` is `Rat.sqrt`. -/
def center_dist (b1 b2 : List ℚ) : ℚ :=
  let (acx, acy, _, _) := bb4 b1
  let (bcx, bcy, _, _) := bb4 b2
  Rat.sqrt ((acx - bcx) ^ 2 + (acy - bcy) ^ 2)

/-- The best-segment scan for one detection (pipeline_redact.py:165–176):
greedy argmax of `iou − 0.1·dist` over unused, fresh-enough, close-enough
active segments. -/
def findBest (hold_gap_ms : Int) (iou_thr max_center_dist : ℚ) (ts : Int)
    (e : REvent) (active : List Seg) (used : List Nat) : Option Nat :=
  (active.enum.foldl (fun (st : Option Nat × ℚ) js =>
    let j := js.1
    let seg := js.2
    if j ∈ used then st
    else if ts - segLastTs seg > hold_gap_ms then st
    else
      let last_bbox := (segLast seg).2.1
      let iou := bbox_iou e.bbox last_bbox
      let dist := center_dist e.bbox last_bbox
      let score := iou - (1 / 10 : ℚ) * dist
      if iou < iou_thr ∧ dist > max_center_dist then st
      else if score > st.2 then (some j, score) else st)
    (none, -1)).1

/-- Append the detection as a new keyframe of segment `j`
(pipeline_redact.py:177–181). -/
def updateSeg (active : List Seg) (j : Nat) (ts grace_ms : Int) (e : REvent) :
    List Seg :=
  match active[j]? with
  | some seg =>
      active.set j
        { seg with keys := seg.keys ++ [(ts, e.bbox, e.score)],
                   end_ms := ts + grace_ms }
  | none => active

/-- The matching pass over one timestamp's detections
(pipeline_redact.py:163–181): returns the updated actives and the
unmatched detections. -/
def matchDetections (hold_gap_ms grace_ms : Int) (iou_thr max_center_dist : ℚ)
    (ts : Int) (dets : List REvent) (active0 : List Seg) :
    List Seg × List REvent :=
  let st := dets.foldl (fun (st : List Seg × List Nat × List REvent) e =>
    match findBest hold_gap_ms iou_thr max_center_dist ts e st.1 st.2.1 with
    | some j => (updateSeg st.1 j ts grace_ms e, st.2.1 ++ [j], st.2.2)
    | none => (st.1, st.2.1, st.2.2 ++ [e]))
    (active0, [], [])
  (st.1, st.2.2)

/-- A fresh segment for an unmatched detection (pipeline_redact.py:183–192). -/
def mkSeg (sid : Nat) (lab : String) (grace_ms : Int) (e : REvent) : Seg :=
  { sid := sid, label := lab, start_ms := e.ts_ms, end_ms := e.ts_ms + grace_ms,
    keys := [(e.ts_ms, e.bbox, e.score)] }

/-- One timestamp step for one label (pipeline_redact.py:161–201):
match, spawn, then retire segments silent for more than `hold_gap_ms`. -/
def processTs (hold_gap_ms grace_ms : Int) (iou_thr max_center_dist : ℚ)
    (lab : String) (evts : List REvent)
    (st : List Seg × List Seg × Nat) (ts : Int) : List Seg × List Seg × Nat :=
  let detections := evts.filter (fun e => e.ts_ms = ts)
  let m := matchDetections hold_gap_ms grace_ms iou_thr max_center_dist ts
    detections st.1
  let spawned := m.2.foldl (fun (a : List Seg × Nat) e =>
    (a.1 ++ [mkSeg a.2 lab grace_ms e], a.2 + 1)) (m.1, st.2.2)
  let still := spawned.1.filter (fun seg => ts - segLastTs seg ≤ hold_gap_ms)
  let closed := spawned.1.filter (fun seg => ¬ (ts - segLastTs seg ≤ hold_gap_ms))
  (still, st.2.1 ++ closed, spawned.2)

/-- The per-label loop (pipeline_redact.py:159–204), flushing the
still-active segments at the end. -/
def processLabel (hold_gap_ms grace_ms : Int) (iou_thr max_center_dist : ℚ)
    (st : List Seg × Nat) (g : String × List REvent) : List Seg × Nat :=
  let r := (tsKeys g.2).foldl
    (processTs hold_gap_ms grace_ms iou_thr max_center_dist g.1 g.2)
    ([], st.1, st.2)
  (r.2.1 ++ r.1, r.2.2)

/-- The `(start_ms, label, id)` output sort key (pipeline_redact.py:206). -/
def segSortLe (a b : Seg) : Prop :=
  a.start_ms < b.start_ms ∨
    (a.start_ms = b.start_ms ∧
      (strLt a.label b.label = true ∨ (a.label = b.label ∧ a.sid ≤ b.sid)))

instance : DecidableRel segSortLe := fun a b => by
  rw [segSortLe]; infer_instance

/-- `build_segments_multi` (pipeline_redact.py:146–208). -/
def build_segments_multi (events : List REvent) (hold_gap_ms grace_ms : Int)
    (iou_thr max_center_dist : ℚ) : List Seg :=
  let r := (groupByLabel events).foldl
    (processLabel hold_gap_ms grace_ms iou_thr max_center_dist) ([], 1)
  r.1.insertionSort segSortLe

/-- The merging loop of `_merge_and_thresh` (pipeline_redact.py:420–428):
`(cs, ce)` is the open merged run; runs shorter than `min_ms` are
discarded as they close. -/
def mergeThreshGo (min_ms : Int) : Int × Int → List (Int × Int) → List (Int × Int)
  | (cs, ce), [] => if ce - cs ≥ min_ms then [(cs, ce)] else []
  | (cs, ce), (s, e) :: rest =>
      if s ≤ ce then mergeThreshGo min_ms (cs, max ce e) rest
      else (if ce - cs ≥ min_ms then [(cs, ce)] else []) ++
        mergeThreshGo min_ms (s, e) rest

/-- The `sorted([(s["start_ms"], s["end_ms"]) for s in ss])` pair order. -/
def pairLe (a b : Int × Int) : Prop :=
  a.1 < b.1 ∨ (a.1 = b.1 ∧ a.2 ≤ b.2)

instance : DecidableRel pairLe := fun a b => by
  rw [pairLe]; infer_instance

/-- `_merge_and_thresh` (pipeline_redact.py:417–428). -/
def merge_and_thresh (ss : List Seg) (min_ms : Int) : List (Int × Int) :=
  match (ss.map (fun s => (s.start_ms, s.end_ms))).insertionSort pairLe with
  | [] => []
  | p :: rest => mergeThreshGo min_ms p rest

/-- The renderer's skip-interval computation (`main`,
pipeline_redact.py:342–430, restricted to the skip bucket): the union
label set drives `load_events`, segments are built, skip-bucket segments
are selected case-insensitively, the per-label minimum-keyframe filter is
applied, and the spans are merged with the minimum-duration cut. -/
def rendererSkipIntervals (events : List JEvent)
    (blur_labs red_labs skip_labs : List String) (msmap : List (String × ℚ))
    (hold_gap_ms grace_ms : Int) (iou_thr max_center_dist : ℚ)
    (min_keyframes_map : List (String × Int)) (min_skip_ms : Int) :
    List (Int × Int) :=
  let union_labs := mkuniq (blur_labs ++ red_labs ++ skip_labs)
  let want_lower : Option (List String) :=
    if union_labs.isEmpty then none else some (union_labs.map lowerStr)
  let evs := load_events events want_lower msmap
  let segments := build_segments_multi evs hold_gap_ms grace_ms iou_thr max_center_dist
  let skip_set := skip_labs.map lowerStr
  let seg_skip := segments.filter (fun s => lowerStr s.label ∈ skip_set)
  let seg_skip := seg_skip.filter (fun seg =>
    seg.keys.length ≥ max 1 (dictGet min_keyframes_map seg.label
      (dictGet min_keyframes_map "default" 2)))
  merge_and_thresh seg_skip min_skip_ms

end Censorly

namespace Censorly

/-! ### Service-side merge lemmas (C3) -/

instance : IsTotal Interval (fun a b => a.start_ms ≤ b.start_ms) :=
  ⟨fun a b => le_total _ _⟩

instance : IsTrans Interval (fun a b => a.start_ms ≤ b.start_ms) :=
  ⟨fun _ _ _ => le_trans⟩

theorem mergeGo_proper (join : Int) (acc : Interval) (rest : List Interval)
    (hacc : acc.start_ms ≤ acc.end_ms) (hrest : ∀ i ∈ rest, i.start_ms ≤ i.end_ms) :
    ∀ O ∈ mergeGo join acc rest, O.start_ms ≤ O.end_ms := by
  induction rest generalizing acc with
  | nil =>
      intro O hO
      rw [mergeGo, List.mem_singleton] at hO
      subst hO
      exact hacc
  | cons i rest ih =>
      intro O hO
      rw [mergeGo] at hO
      split at hO
      · exact ih (⟨acc.start_ms, max acc.end_ms i.end_ms⟩ : Interval)
          (le_trans hacc (le_max_left _ _))
          (fun x hx => hrest x (List.mem_cons_of_mem _ hx)) O hO
      · rcases List.mem_cons.mp hO with rfl | hO
        · exact hacc
        · exact ih i (hrest i (List.mem_cons_self _ _))
            (fun x hx => hrest x (List.mem_cons_of_mem _ hx)) O hO

theorem mergeGo_covers (join : Int) (acc : Interval) (rest : List Interval)
    (hs : ∀ i ∈ rest, acc.start_ms ≤ i.start_ms)
    (hsorted : List.Pairwise (fun a b => a.start_ms ≤ b.start_ms) rest) :
    ∀ i ∈ acc :: rest, ∃ O ∈ mergeGo join acc rest,
      O.start_ms ≤ i.start_ms ∧ i.end_ms ≤ O.end_ms := by
  induction rest generalizing acc with
  | nil =>
      intro i hi
      rw [List.mem_singleton] at hi
      subst hi
      exact ⟨i, by rw [mergeGo]; exact List.mem_singleton_self _, le_refl _, le_refl _⟩
  | cons i0 rest ih =>
      intro i hi
      rw [mergeGo]
      split
      · rename_i hmerge
        have hs' : ∀ x ∈ rest, (⟨acc.start_ms, max acc.end_ms i0.end_ms⟩ :
            Interval).start_ms ≤ x.start_ms :=
          fun x hx => hs x (List.mem_cons_of_mem _ hx)
        have hsorted' := List.pairwise_cons.mp hsorted
        rcases List.mem_cons.mp hi with hieq | hi2
        · obtain ⟨O, hO, h1, h2⟩ := ih (⟨acc.start_ms, max acc.end_ms i0.end_ms⟩ : Interval)
            hs' hsorted'.2 _ (List.mem_cons_self _ _)
          rw [hieq]
          exact ⟨O, hO, h1, le_trans (le_max_left _ _) h2⟩
        · rcases List.mem_cons.mp hi2 with hieq | hi3
          · obtain ⟨O, hO, h1, h2⟩ := ih (⟨acc.start_ms, max acc.end_ms i0.end_ms⟩ : Interval)
              hs' hsorted'.2 _ (List.mem_cons_self _ _)
            rw [hieq]
            exact ⟨O, hO, le_trans h1 (hs i0 (List.mem_cons_self _ _)),
              le_trans (le_max_right _ _) h2⟩
          · obtain ⟨O, hO, h1, h2⟩ := ih (⟨acc.start_ms, max acc.end_ms i0.end_ms⟩ : Interval)
              hs' hsorted'.2 i (List.mem_cons_of_mem _ hi3)
            exact ⟨O, hO, h1, h2⟩
      · rename_i hsplit
        have hsorted' := List.pairwise_cons.mp hsorted
        rcases List.mem_cons.mp hi with rfl | hi2
        · exact ⟨i, List.mem_cons_self _ _, le_refl _, le_refl _⟩
        · obtain ⟨O, hO, h1, h2⟩ := ih i0 hsorted'.1 hsorted'.2 i hi2
          exact ⟨O, List.mem_cons_of_mem _ hO, h1, h2⟩

theorem mergeGo_head (join : Int) (acc : Interval) (rest : List Interval) :
    ∃ t tl, mergeGo join acc rest = Interval.mk acc.start_ms t :: tl ∧ acc.end_ms ≤ t := by
  induction rest generalizing acc with
  | nil => exact ⟨acc.end_ms, [], by rw [mergeGo], le_refl _⟩
  | cons i rest ih =>
      rw [mergeGo]
      split
      · obtain ⟨t, tl, heq, hle⟩ := ih (⟨acc.start_ms, max acc.end_ms i.end_ms⟩ : Interval)
        exact ⟨t, tl, heq, le_trans (le_max_left _ _) hle⟩
      · exact ⟨acc.end_ms, mergeGo join i rest, rfl, le_refl _⟩

theorem mergeGo_sep (join : Int) (acc : Interval) (rest : List Interval) :
    List.Chain' (fun a b => a.end_ms + join < b.start_ms) (mergeGo join acc rest) := by
  induction rest generalizing acc with
  | nil => rw [mergeGo]; exact List.chain'_singleton _
  | cons i rest ih =>
      rw [mergeGo]
      split
      · exact ih _
      · rename_i hsplit
        obtain ⟨t, tl, heq, _⟩ := mergeGo_head join i rest
        rw [heq]
        rw [List.chain'_cons]
        refine ⟨by dsimp only; omega, ?_⟩
        rw [← heq]
        exact ih i

/-- From a separation chain and proper members, separation holds between
any earlier and any later member. -/
theorem sep_pairwise (join : Int) (hjoin : 0 ≤ join) (outs : List Interval)
    (hproper : ∀ O ∈ outs, O.start_ms ≤ O.end_ms)
    (hchain : List.Chain' (fun a b => a.end_ms + join < b.start_ms) outs) :
    List.Pairwise (fun a b => a.end_ms + join < b.start_ms) outs := by
  induction outs with
  | nil => exact List.Pairwise.nil
  | cons a l ih =>
      rw [List.pairwise_cons]
      have hl := ih (fun O hO => hproper O (List.mem_cons_of_mem _ hO))
        (List.chain'_cons'.mp hchain).2
      refine ⟨?_, hl⟩
      intro b hb
      cases l with
      | nil => simp at hb
      | cons c l2 =>
          have hac : a.end_ms + join < c.start_ms :=
            (List.chain'_cons.mp hchain).1
          rcases List.mem_cons.mp hb with rfl | hb2
          · exact hac
          · have hcb : c.end_ms + join < b.start_ms :=
              (List.pairwise_cons.mp hl).1 b hb2
            have hc := hproper c (List.mem_cons_of_mem _ (List.mem_cons_self _ _))
            omega

/-- Any two members of a pairwise-separated list are related one way or
the other (or equal as members). -/
theorem pairwise_or {R : Interval → Interval → Prop} {l : List Interval}
    (h : List.Pairwise R l) :
    ∀ a ∈ l, ∀ b ∈ l, a = b ∨ R a b ∨ R b a := by
  induction l with
  | nil => simp
  | cons x xs ih =>
      intro a ha b hb
      obtain ⟨hx, hxs⟩ := List.pairwise_cons.mp h
      rcases List.mem_cons.mp ha with rfl | ha2
      · rcases List.mem_cons.mp hb with rfl | hb2
        · exact Or.inl rfl
        · exact Or.inr (Or.inl (hx b hb2))
      · rcases List.mem_cons.mp hb with rfl | hb2
        · exact Or.inr (Or.inr (hx a ha2))
        · exact ih hxs a ha2 b hb2

/-- Two spans that touch (up to `join`) are contained in the same merged
interval. -/
theorem same_container (join : Int) (hjoin : 0 ≤ join) (outs : List Interval)
    (hpw : List.Pairwise (fun a b => a.end_ms + join < b.start_ms) outs)
    {Oa Ob : Interval} (hOa : Oa ∈ outs) (hOb : Ob ∈ outs)
    {a1 a2 b1 b2 : Int}
    (hA : Oa.start_ms ≤ a1 ∧ a2 ≤ Oa.end_ms)
    (hB : Ob.start_ms ≤ b1 ∧ b2 ≤ Ob.end_ms)
    (h1 : a1 ≤ b2) (h2 : b1 ≤ a2 + join) : Oa = Ob := by
  rcases pairwise_or hpw Oa hOa Ob hOb with h | h | h
  · exact h
  · omega
  · omega

end Censorly

namespace Censorly

/-! ### Segment well-formedness invariants (C3) -/

/-- Keyframe timestamps are non-decreasing with consecutive gaps of at
most `hold_gap_ms` (the matching condition of `build_segments_multi`). -/
def keyChain (hold : Int) (keys : List (Int × List ℚ × ℚ)) : Prop :=
  List.Chain' (fun k1 k2 => k1.1 ≤ k2.1 ∧ k2.1 - k1.1 ≤ hold) keys

/-- The structural facts `build_segments_multi` guarantees for every
segment: non-empty hold-gap-chained keys, `start_ms` at the first key,
`end_ms` one grace past the last key, and every key taken from an input
event of the segment's label. -/
def SegWF (hold grace : Int) (evs : List REvent) (seg : Seg) : Prop :=
  seg.keys ≠ [] ∧
  keyChain hold seg.keys ∧
  (∀ k0, seg.keys.head? = some k0 → seg.start_ms = k0.1) ∧
  seg.end_ms = segLastTs seg + grace ∧
  (∀ k ∈ seg.keys, ∃ ev ∈ evs, ev.label = seg.label ∧ ev.ts_ms = k.1)

/-- `SegWF` plus the loop-local facts for a still-active segment. -/
def ActiveWF (hold grace : Int) (evs : List REvent) (lab : String) (bound : Int)
    (seg : Seg) : Prop :=
  SegWF hold grace evs seg ∧ seg.label = lab ∧ segLastTs seg ≤ bound

theorem ActiveWF.mono {hold grace : Int} {evs : List REvent} {lab : String}
    {b1 b2 : Int} (h : b1 ≤ b2) {seg : Seg}
    (hw : ActiveWF hold grace evs lab b1 seg) :
    ActiveWF hold grace evs lab b2 seg :=
  ⟨hw.1, hw.2.1, le_trans hw.2.2 h⟩

theorem findBest_fold_spec (hold : Int) (iou_thr maxcd : ℚ) (ts : Int)
    (e : REvent) (active : List Seg) (used : List Nat)
    (L : List (Nat × Seg)) (hL : ∀ js ∈ L, active[js.1]? = some js.2)
    (st0 : Option Nat × ℚ)
    (hst0 : ∀ j, st0.1 = some j →
      ∃ seg, active[j]? = some seg ∧ ts - segLastTs seg ≤ hold) :
    ∀ j, (L.foldl (fun (st : Option Nat × ℚ) js =>
      let j := js.1
      let seg := js.2
      if j ∈ used then st
      else if ts - segLastTs seg > hold then st
      else
        let last_bbox := (segLast seg).2.1
        let iou := bbox_iou e.bbox last_bbox
        let dist := center_dist e.bbox last_bbox
        let score := iou - (1 / 10 : ℚ) * dist
        if iou < iou_thr ∧ dist > maxcd then st
        else if score > st.2 then (some j, score) else st) st0).1 = some j →
      ∃ seg, active[j]? = some seg ∧ ts - segLastTs seg ≤ hold := by
  induction L generalizing st0 with
  | nil => exact hst0
  | cons js L ih =>
      rw [List.foldl_cons]
      refine ih (fun x hx => hL x (List.mem_cons_of_mem _ hx)) _ ?_
      intro j hj
      dsimp only at hj
      by_cases h1 : js.1 ∈ used
      · rw [if_pos h1] at hj
        exact hst0 j hj
      · rw [if_neg h1] at hj
        by_cases h2 : ts - segLastTs js.2 > hold
        · rw [if_pos h2] at hj
          exact hst0 j hj
        · rw [if_neg h2] at hj
          split at hj
          · exact hst0 j hj
          · split at hj
            · simp only [Option.some.injEq] at hj
              exact hj ▸ ⟨js.2, hL js (List.mem_cons_self _ _), not_lt.mp h2⟩
            · exact hst0 j hj

theorem findBest_spec (hold : Int) (iou_thr maxcd : ℚ) (ts : Int) (e : REvent)
    (active : List Seg) (used : List Nat) {j : Nat}
    (h : findBest hold iou_thr maxcd ts e active used = some j) :
    ∃ seg, active[j]? = some seg ∧ ts - segLastTs seg ≤ hold := by
  refine findBest_fold_spec hold iou_thr maxcd ts e active used active.enum
    ?_ (none, -1) (by intro j hj; simp at hj) j h
  intro js hjs
  rw [← List.get?_eq_getElem?]
  exact List.mem_enum_iff_get?.mp hjs

end Censorly

namespace Censorly

theorem updateSeg_WF {hold grace : Int} {evs : List REvent} {lab : String}
    {ts : Int} {active : List Seg} {j : Nat} {e : REvent}
    (hinv : ∀ s ∈ active, ActiveWF hold grace evs lab ts s)
    (he : e ∈ evs) (heqlab : e.label = lab) (hets : e.ts_ms = ts)
    {seg0 : Seg} (hj : active[j]? = some seg0)
    (hfresh : ts - segLastTs seg0 ≤ hold) :
    ∀ s ∈ updateSeg active j ts grace e, ActiveWF hold grace evs lab ts s := by
  intro s hs
  rw [updateSeg, hj] at hs
  rcases List.mem_or_eq_of_mem_set hs with hmem | heq
  · exact hinv s hmem
  · obtain ⟨⟨hne, hchain, hhead, hend, hprov⟩, hlabel, hlast⟩ :=
      hinv seg0 (List.getElem?_mem hj)
    subst heq
    have hlastkey : seg0.keys.getLast? = some (segLast seg0) := by
      rw [segLast, List.getLastD_eq_getLast?]
      cases hgl : seg0.keys.getLast? with
      | none => exact absurd (List.getLast?_eq_none_iff.mp hgl) hne
      | some z => rfl
    refine ⟨⟨by simp, ?_, ?_, ?_, ?_⟩, hlabel, ?_⟩
    · rw [keyChain] at hchain ⊢
      dsimp only
      rw [List.chain'_append]
      refine ⟨hchain, List.chain'_singleton _, ?_⟩
      intro x hx y hy
      rw [Option.mem_def, hlastkey, Option.some.injEq] at hx
      rw [Option.mem_def, List.head?_cons, Option.some.injEq] at hy
      subst hx
      subst hy
      exact ⟨hlast, hfresh⟩
    · intro k0 hk0
      obtain ⟨k1, krest, hkeys⟩ := List.exists_cons_of_ne_nil hne
      dsimp only at hk0 ⊢
      rw [hkeys, List.cons_append, List.head?_cons, Option.some.injEq] at hk0
      subst hk0
      exact hhead k1 (by rw [hkeys, List.head?_cons])
    · simp [segLastTs, segLast, List.getLastD_concat]
    · intro k hk
      dsimp only at hk ⊢
      rcases List.mem_append.mp hk with hk1 | hk2
      · exact hprov k hk1
      · rw [List.mem_singleton] at hk2
        subst hk2
        exact ⟨e, he, heqlab.trans hlabel.symm, hets⟩
    · simp [segLastTs, segLast, List.getLastD_concat]

theorem mkSeg_WF {hold grace : Int} {evs : List REvent} {lab : String} {ts : Int}
    (sid : Nat) {e : REvent} (he : e ∈ evs) (heqlab : e.label = lab)
    (hets : e.ts_ms = ts) :
    ActiveWF hold grace evs lab ts (mkSeg sid lab grace e) := by
  refine ⟨⟨by simp [mkSeg], ?_, ?_, ?_, ?_⟩, rfl, ?_⟩
  · rw [keyChain, mkSeg]
    exact List.chain'_singleton _
  · intro k0 hk0
    rw [mkSeg] at hk0
    simp only [List.head?_cons, Option.some.injEq] at hk0
    simp [mkSeg, ← hk0]
  · simp [mkSeg, segLastTs, segLast]
  · intro k hk
    rw [mkSeg] at hk
    simp only [List.mem_singleton] at hk
    subst hk
    exact ⟨e, he, heqlab, rfl⟩
  · simp [mkSeg, segLastTs, segLast, hets]

theorem matchDetections_WF {hold grace : Int} {iou maxcd : ℚ} {evs : List REvent}
    {lab : String} {ts : Int} (dets : List REvent) (active0 : List Seg)
    (hdets : ∀ e ∈ dets, e ∈ evs ∧ e.label = lab ∧ e.ts_ms = ts)
    (hact : ∀ s ∈ active0, ActiveWF hold grace evs lab ts s) :
    (∀ s ∈ (matchDetections hold grace iou maxcd ts dets active0).1,
      ActiveWF hold grace evs lab ts s) ∧
    (∀ e ∈ (matchDetections hold grace iou maxcd ts dets active0).2, e ∈ dets) := by
  rw [matchDetections]
  dsimp only
  have key : ∀ (l : List REvent) (st : List Seg × List Nat × List REvent),
      (∀ e ∈ l, e ∈ evs ∧ e.label = lab ∧ e.ts_ms = ts) →
      (∀ e ∈ l, e ∈ dets) →
      (∀ s ∈ st.1, ActiveWF hold grace evs lab ts s) →
      (∀ e ∈ st.2.2, e ∈ dets) →
      (∀ s ∈ (l.foldl (fun (st : List Seg × List Nat × List REvent) e =>
        match findBest hold iou maxcd ts e st.1 st.2.1 with
        | some j => (updateSeg st.1 j ts grace e, st.2.1 ++ [j], st.2.2)
        | none => (st.1, st.2.1, st.2.2 ++ [e])) st).1,
        ActiveWF hold grace evs lab ts s) ∧
      (∀ e ∈ (l.foldl (fun (st : List Seg × List Nat × List REvent) e =>
        match findBest hold iou maxcd ts e st.1 st.2.1 with
        | some j => (updateSeg st.1 j ts grace e, st.2.1 ++ [j], st.2.2)
        | none => (st.1, st.2.1, st.2.2 ++ [e])) st).2.2, e ∈ dets) := by
    intro l
    induction l with
    | nil => intro st _ _ h3 h4; exact ⟨h3, h4⟩
    | cons e l ih =>
        intro st hl hld h3 h4
        rw [List.foldl_cons]
        cases hfb : findBest hold iou maxcd ts e st.1 st.2.1 with
        | some j =>
            obtain ⟨seg0, hj, hfresh⟩ := findBest_spec hold iou maxcd ts e st.1 st.2.1 hfb
            exact ih _ (fun x hx => hl x (List.mem_cons_of_mem _ hx))
              (fun x hx => hld x (List.mem_cons_of_mem _ hx))
              (updateSeg_WF h3 (hl e (List.mem_cons_self _ _)).1
                (hl e (List.mem_cons_self _ _)).2.1
                (hl e (List.mem_cons_self _ _)).2.2 hj hfresh)
              h4
        | none =>
            refine ih _ (fun x hx => hl x (List.mem_cons_of_mem _ hx))
              (fun x hx => hld x (List.mem_cons_of_mem _ hx)) h3 ?_
            intro x hx
            rcases List.mem_append.mp hx with hx1 | hx2
            · exact h4 x hx1
            · rw [List.mem_singleton] at hx2
              subst hx2
              exact hld x (List.mem_cons_self _ _)
  exact key dets (active0, [], []) hdets (fun _ h => h) hact
    (by intro x hx; simp at hx)

end Censorly

namespace Censorly

theorem processTs_WF {hold grace : Int} {iou maxcd : ℚ} {evs : List REvent}
    {lab : String} (evts : List REvent)
    (hevts : ∀ e ∈ evts, e ∈ evs ∧ e.label = lab)
    (st : List Seg × List Seg × Nat) (ts : Int)
    (h1 : ∀ s ∈ st.1, ActiveWF hold grace evs lab ts s)
    (h2 : ∀ s ∈ st.2.1, SegWF hold grace evs s) :
    (∀ s ∈ (processTs hold grace iou maxcd lab evts st ts).1,
      ActiveWF hold grace evs lab ts s) ∧
    (∀ s ∈ (processTs hold grace iou maxcd lab evts st ts).2.1,
      SegWF hold grace evs s) := by
  rw [processTs]
  dsimp only
  have hdets : ∀ e ∈ evts.filter (fun e => e.ts_ms = ts),
      e ∈ evs ∧ e.label = lab ∧ e.ts_ms = ts := by
    intro e he
    obtain ⟨he1, he2⟩ := List.mem_filter.mp he
    exact ⟨(hevts e he1).1, (hevts e he1).2, by simpa using he2⟩
  obtain ⟨hm1, hm2⟩ := @matchDetections_WF hold grace iou maxcd evs lab ts
    (evts.filter (fun e => e.ts_ms = ts)) st.1 hdets h1
  have spawn : ∀ (l : List REvent) (a : List Seg × Nat),
      (∀ e ∈ l, e ∈ evs ∧ e.label = lab ∧ e.ts_ms = ts) →
      (∀ s ∈ a.1, ActiveWF hold grace evs lab ts s) →
      ∀ s ∈ (l.foldl (fun (a : List Seg × Nat) e =>
        (a.1 ++ [mkSeg a.2 lab grace e], a.2 + 1)) a).1,
        ActiveWF hold grace evs lab ts s := by
    intro l
    induction l with
    | nil => intro a _ ha; exact ha
    | cons e l ih =>
        intro a hl ha
        rw [List.foldl_cons]
        refine ih _ (fun x hx => hl x (List.mem_cons_of_mem _ hx)) ?_
        intro s hs
        rcases List.mem_append.mp hs with hs1 | hs2
        · exact ha s hs1
        · rw [List.mem_singleton] at hs2
          subst hs2
          exact mkSeg_WF a.2 (hl e (List.mem_cons_self _ _)).1
            (hl e (List.mem_cons_self _ _)).2.1
            (hl e (List.mem_cons_self _ _)).2.2
  have hsp := spawn
    (matchDetections hold grace iou maxcd ts
      (evts.filter (fun e => e.ts_ms = ts)) st.1).2
    ((matchDetections hold grace iou maxcd ts
      (evts.filter (fun e => e.ts_ms = ts)) st.1).1, st.2.2)
    (fun e he => hdets e (hm2 e he)) hm1
  constructor
  · intro s hs
    exact hsp s (List.mem_filter.mp hs).1
  · intro s hs
    rcases List.mem_append.mp hs with hs1 | hs2
    · exact h2 s hs1
    · exact (hsp s (List.mem_filter.mp hs2).1).1

theorem processLabel_WF {hold grace : Int} {iou maxcd : ℚ} {evs : List REvent}
    (g : String × List REvent)
    (hg : ∀ e ∈ g.2, e ∈ evs ∧ e.label = g.1)
    (st : List Seg × Nat)
    (hst : ∀ s ∈ st.1, SegWF hold grace evs s) :
    ∀ s ∈ (processLabel hold grace iou maxcd st g).1, SegWF hold grace evs s := by
  rw [processLabel]
  dsimp only
  have key : ∀ (l : List Int), List.Sorted (fun a b => a ≤ b) l →
      ∀ (st' : List Seg × List Seg × Nat),
      (∀ s ∈ st'.1, SegWF hold grace evs s ∧ s.label = g.1 ∧
        ∀ t ∈ l, segLastTs s ≤ t) →
      (∀ s ∈ st'.2.1, SegWF hold grace evs s) →
      (∀ s ∈ (l.foldl (processTs hold grace iou maxcd g.1 g.2) st').1,
        SegWF hold grace evs s) ∧
      (∀ s ∈ (l.foldl (processTs hold grace iou maxcd g.1 g.2) st').2.1,
        SegWF hold grace evs s) := by
    intro l
    induction l with
    | nil =>
        intro _ st' hA hD
        exact ⟨fun s hs => (hA s hs).1, hD⟩
    | cons ts l ih =>
        intro hsorted st' hA hD
        rw [List.foldl_cons]
        obtain ⟨hts_rest, hsort'⟩ := List.sorted_cons.mp hsorted
        obtain ⟨hp1, hp2⟩ := processTs_WF g.2 hg st' ts
          (fun s hs => ⟨(hA s hs).1, (hA s hs).2.1,
            (hA s hs).2.2 ts (List.mem_cons_self _ _)⟩)
          hD
        refine ih hsort' _ ?_ hp2
        intro s hs
        obtain ⟨hw, hl, hb⟩ := hp1 s hs
        exact ⟨hw, hl, fun t ht => le_trans hb (hts_rest t ht)⟩
  obtain ⟨hA, hD⟩ := key (tsKeys g.2)
    (by rw [tsKeys]; exact List.sorted_insertionSort _ _)
    ([], st.1, st.2) (by intro s hs; simp at hs) hst
  intro s hs
  rcases List.mem_append.mp hs with hs1 | hs2
  · exact hD s hs1
  · exact hA s hs2

theorem groupByLabel_mem {evs : List REvent} :
    ∀ g ∈ groupByLabel evs, ∀ e ∈ g.2, e ∈ evs ∧ e.label = g.1 := by
  intro g hg e he
  rw [groupByLabel] at hg
  obtain ⟨lab, _, rfl⟩ := List.mem_map.mp hg
  obtain ⟨h1, h2⟩ := List.mem_filter.mp he
  exact ⟨h1, by simpa using h2⟩

theorem build_segments_multi_WF (evs : List REvent) (hold grace : Int)
    (iou maxcd : ℚ) :
    ∀ s ∈ build_segments_multi evs hold grace iou maxcd,
      SegWF hold grace evs s := by
  intro s hs
  rw [build_segments_multi] at hs
  have hs' := (List.perm_insertionSort segSortLe _).mem_iff.mp hs
  have key : ∀ (gs : List (String × List REvent)),
      (∀ g ∈ gs, ∀ e ∈ g.2, e ∈ evs ∧ e.label = g.1) →
      ∀ (st : List Seg × Nat), (∀ x ∈ st.1, SegWF hold grace evs x) →
      ∀ x ∈ (gs.foldl (processLabel hold grace iou maxcd) st).1,
        SegWF hold grace evs x := by
    intro gs
    induction gs with
    | nil => intro _ st hst; exact hst
    | cons g gs ih =>
        intro hgs st hst
        rw [List.foldl_cons]
        exact ih (fun x hx => hgs x (List.mem_cons_of_mem _ hx)) _
          (processLabel_WF g (hgs g (List.mem_cons_self _ _)) st hst)
  exact key (groupByLabel evs) groupByLabel_mem ([], 1)
    (by intro x hx; simp at hx) s hs'

end Censorly

namespace Censorly

theorem sortByStart_perm (ints : List Interval) : (sortByStart ints).Perm ints := by
  rw [sortByStart]
  exact List.perm_insertionSort _ _

theorem sortByStart_sorted (ints : List Interval) :
    List.Sorted (fun a b => a.start_ms ≤ b.start_ms) (sortByStart ints) := by
  rw [sortByStart]
  exact List.sorted_insertionSort _ _

theorem mergeIntervals_proper (ints : List Interval) (join : Int)
    (hints : ∀ i ∈ ints, i.start_ms ≤ i.end_ms) :
    ∀ O ∈ mergeIntervals ints join, O.start_ms ≤ O.end_ms := by
  rw [mergeIntervals]
  cases hsort : sortByStart ints with
  | nil => intro O hO; simp at hO
  | cons i rest =>
      have hmem : ∀ x ∈ i :: rest, x ∈ ints := fun x hx =>
        (sortByStart_perm ints).mem_iff.mp (hsort ▸ hx)
      exact mergeGo_proper join i rest (hints i (hmem i (List.mem_cons_self _ _)))
        (fun x hx => hints x (hmem x (List.mem_cons_of_mem _ hx)))

theorem mergeIntervals_covers (ints : List Interval) (join : Int) :
    ∀ i ∈ ints, ∃ O ∈ mergeIntervals ints join,
      O.start_ms ≤ i.start_ms ∧ i.end_ms ≤ O.end_ms := by
  intro i hi
  rw [mergeIntervals]
  have hi' : i ∈ sortByStart ints := (sortByStart_perm ints).mem_iff.mpr hi
  have hsorted := sortByStart_sorted ints
  cases hsort : sortByStart ints with
  | nil => rw [hsort] at hi'; simp at hi'
  | cons i0 rest =>
      rw [hsort] at hi' hsorted
      obtain ⟨hhead, hpw⟩ := List.sorted_cons.mp hsorted
      exact mergeGo_covers join i0 rest hhead hpw i hi'

theorem mergeIntervals_pairwise (ints : List Interval) (join : Int)
    (hjoin : 0 ≤ join) (hints : ∀ i ∈ ints, i.start_ms ≤ i.end_ms) :
    List.Pairwise (fun a b => a.end_ms + join < b.start_ms)
      (mergeIntervals ints join) := by
  have hproper := mergeIntervals_proper ints join hints
  rw [mergeIntervals] at hproper ⊢
  cases hsort : sortByStart ints with
  | nil => exact List.Pairwise.nil
  | cons i rest =>
      rw [hsort] at hproper
      exact sep_pairwise join hjoin _ hproper (mergeGo_sep join i rest)

theorem chain_container (g hold : Int) (hg : 0 ≤ g) (hhold : 0 ≤ hold)
    (outs : List Interval)
    (hpw : List.Pairwise (fun a b => a.end_ms + hold < b.start_ms) outs) :
    ∀ (t : Int) (rest : List Int),
    (∀ u ∈ t :: rest, 0 ≤ u) →
    List.Chain' (fun a b => a ≤ b ∧ b - a ≤ hold) (t :: rest) →
    (∀ u ∈ t :: rest, ∃ O ∈ outs,
      O.start_ms ≤ max 0 (u - g) ∧ u + g ≤ O.end_ms) →
    ∃ O ∈ outs, ∀ u ∈ t :: rest,
      O.start_ms ≤ max 0 (u - g) ∧ u + g ≤ O.end_ms := by
  intro t rest
  induction rest generalizing t with
  | nil =>
      intro _ _ hcov
      obtain ⟨O, hO, h1, h2⟩ := hcov t (List.mem_cons_self _ _)
      refine ⟨O, hO, ?_⟩
      intro u hu
      rw [List.mem_singleton] at hu
      subst hu
      exact ⟨h1, h2⟩
  | cons t2 rest ih =>
      intro hpos hchain hcov
      obtain ⟨hR, hchain'⟩ := List.chain'_cons.mp hchain
      obtain ⟨O', hO', hcov'⟩ := ih t2
        (fun u hu => hpos u (List.mem_cons_of_mem _ hu)) hchain'
        (fun u hu => hcov u (List.mem_cons_of_mem _ hu))
      obtain ⟨O, hO, h1, h2⟩ := hcov t (List.mem_cons_self _ _)
      obtain ⟨hc1, hc2⟩ := hcov' t2 (List.mem_cons_self _ _)
      have ht : 0 ≤ t := hpos t (List.mem_cons_self _ _)
      have ht2 : 0 ≤ t2 := hpos t2 (List.mem_cons_of_mem _ (List.mem_cons_self _ _))
      have heq : O = O' := by
        refine same_container hold hhold outs hpw hO hO' ⟨h1, h2⟩ ⟨hc1, hc2⟩
          (max_le (by omega) (by omega)) (max_le (by omega) (by omega))
      subst heq
      refine ⟨O, hO, ?_⟩
      intro u hu
      rcases List.mem_cons.mp hu with rfl | hu2
      · exact ⟨h1, h2⟩
      · exact hcov' u hu2

instance : IsTotal (Int × Int) pairLe :=
  ⟨fun a b => by rw [pairLe, pairLe]; omega⟩

instance : IsTrans (Int × Int) pairLe :=
  ⟨fun a b c hab hbc => by rw [pairLe] at hab hbc ⊢; omega⟩

theorem mergeThreshGo_covers (m join : Int) (hjoin : 0 ≤ join)
    (outs : List Interval)
    (hpw : List.Pairwise (fun a b => a.end_ms + join < b.start_ms) outs) :
    ∀ (rest : List (Int × Int)) (cur : Int × Int),
    (∃ O ∈ outs, O.start_ms ≤ cur.1 ∧ cur.2 ≤ O.end_ms) →
    cur.1 ≤ cur.2 →
    (∀ q ∈ rest, (∃ O ∈ outs, O.start_ms ≤ q.1 ∧ q.2 ≤ O.end_ms) ∧
      q.1 ≤ q.2 ∧ cur.1 ≤ q.1) →
    List.Pairwise (fun a b => a.1 ≤ b.1) rest →
    ∀ p ∈ mergeThreshGo m cur rest,
      ∃ O ∈ outs, O.start_ms ≤ p.1 ∧ p.2 ≤ O.end_ms ∧ m ≤ p.2 - p.1 := by
  intro rest
  induction rest with
  | nil =>
      intro cur hcur _ _ _ p hp
      obtain ⟨cs, ce⟩ := cur
      rw [mergeThreshGo] at hp
      split at hp
      · rename_i hge
        rw [List.mem_singleton] at hp
        subst hp
        obtain ⟨O, hO, h1, h2⟩ := hcur
        exact ⟨O, hO, h1, h2, by omega⟩
      · simp at hp
  | cons q rest ih =>
      intro cur hcur hple hrest hsort p hp
      obtain ⟨cs, ce⟩ := cur
      obtain ⟨s, e⟩ := q
      dsimp only at hple
      rw [mergeThreshGo] at hp
      split at hp
      · rename_i hmerge
        obtain ⟨O, hO, h1, h2⟩ := hcur
        obtain ⟨⟨O', hO', hq1, hq2⟩, hqle, hcq⟩ :=
          hrest (s, e) (List.mem_cons_self _ _)
        dsimp only at h1 h2 hq1 hq2 hqle hcq
        have heq : O = O' := same_container join hjoin outs hpw hO hO'
          ⟨h1, h2⟩ ⟨hq1, hq2⟩ (by omega) (by omega)
        subst heq
        refine ih (cs, max ce e) ⟨O, hO, h1, max_le h2 hq2⟩
          (by dsimp only; omega) ?_ (List.pairwise_cons.mp hsort).2 p hp
        intro x hx
        obtain ⟨hxc, hxle, hxge⟩ := hrest x (List.mem_cons_of_mem _ hx)
        exact ⟨hxc, hxle, hxge⟩
      · rename_i hsplit
        rcases List.mem_append.mp hp with hp1 | hp2
        · split at hp1
          · rename_i hge
            rw [List.mem_singleton] at hp1
            subst hp1
            obtain ⟨O, hO, h1, h2⟩ := hcur
            exact ⟨O, hO, h1, h2, by omega⟩
          · simp at hp1
        · obtain ⟨⟨O', hO', hq1, hq2⟩, hqle, _⟩ :=
            hrest (s, e) (List.mem_cons_self _ _)
          refine ih (s, e) ⟨O', hO', hq1, hq2⟩ hqle ?_
            (List.pairwise_cons.mp hsort).2 p hp2
          intro x hx
          obtain ⟨hxc, hxle, _⟩ := hrest x (List.mem_cons_of_mem _ hx)
          exact ⟨hxc, hxle, (List.pairwise_cons.mp hsort).1 x hx⟩

end Censorly

namespace Censorly

theorem dictGet_of_mem {α : Type} {m : List (String × α)} {k : String}
    (h : dictMem m k = true) (d1 d2 : α) : dictGet m k d1 = dictGet m k d2 := by
  rw [dictMem] at h
  obtain ⟨p, hp⟩ := Option.isSome_iff_exists.mp h
  rw [dictGet, dictGet, dictFind, hp]
  rfl

theorem loadEventOne_spec {msmap : List (String × ℚ)} {e : JEvent} {ev : REvent}
    (h : loadEventOne msmap e = some ev) :
    ev.ts_ms = e.ts_ms ∧ ev.label = effLabel e ∧ ev.score = e.score.getD 0 ∧
      ¬ e.score.getD 0 < ms_lookup msmap (effLabel e) 0.25 := by
  rw [loadEventOne] at h
  split at h
  · exact absurd h (by simp)
  · rename_i hsc
    split at h
    · exact absurd h (by simp)
    · rename_i bb
      split at h
      · exact absurd h (by simp)
      · rw [Option.some.injEq] at h
        subst h
        exact ⟨rfl, rfl, rfl, hsc⟩

theorem load_events_mem {events : List JEvent} {w : Option (List String)}
    {msmap : List (String × ℚ)} {ev : REvent}
    (h : ev ∈ load_events events w msmap) :
    ∃ e ∈ events, loadEventOne msmap e = some ev := by
  rw [load_events] at h
  have h' := (List.perm_insertionSort revLe _).mem_iff.mp h
  obtain ⟨e, he, heq⟩ := List.mem_filterMap.mp h'
  refine ⟨e, he, ?_⟩
  cases w with
  | none => exact heq
  | some ws =>
      dsimp only at heq
      split at heq
      · exact heq
      · exact absurd heq (by simp)

theorem rendererSkipIntervals_nil_skip (events : List JEvent)
    (blur_labs red_labs : List String) (msmap : List (String × ℚ))
    (hold grace : Int) (iou maxcd : ℚ) (mkf : List (String × Int))
    (min_skip : Int) :
    rendererSkipIntervals events blur_labs red_labs [] msmap hold grace
      iou maxcd mkf min_skip = [] := by
  rw [rendererSkipIntervals]
  simp [merge_and_thresh, List.insertionSort]

end Censorly

namespace Censorly

/-- The padded per-event intervals `_calc_skip_intervals` builds before
merging (redaction_stream.py:111–121). -/
def serviceInts (events : List JEvent) (labels_skip : List String)
    (min_score_map : List (String × ℚ)) (grace_ms : Int) : List Interval :=
  events.filterMap (fun e =>
    let lab := e.label.getD ""
    if lab ∉ labels_skip then none
    else
      let sc := e.score.getD 0
      let thr := dictGet min_score_map lab (dictGet min_score_map "default" DEFAULT_THRESH)
      if sc < thr then none
      else some (⟨max 0 (e.ts_ms - grace_ms), e.ts_ms + grace_ms⟩ : Interval))

theorem calc_skip_intervals_eq (events : List JEvent) (labels_skip : List String)
    (min_score_map : List (String × ℚ)) (hold_gap_ms grace_ms min_skip_ms : Int) :
    calc_skip_intervals events labels_skip min_score_map hold_gap_ms grace_ms
      min_skip_ms =
    if labels_skip.isEmpty then []
    else (mergeIntervals (serviceInts events labels_skip min_score_map grace_ms)
      hold_gap_ms).filter (fun iv => iv.end_ms - iv.start_ms ≥ max 0 min_skip_ms) :=
  rfl

theorem serviceInts_proper {events : List JEvent} {labels_skip : List String}
    {msmap : List (String × ℚ)} {grace : Int} (hgrace : 0 ≤ grace)
    (hts : ∀ e ∈ events, 0 ≤ e.ts_ms) :
    ∀ i ∈ serviceInts events labels_skip msmap grace,
      i.start_ms ≤ i.end_ms := by
  intro i hi
  rw [serviceInts] at hi
  obtain ⟨e, he, hfe⟩ := List.mem_filterMap.mp hi
  dsimp only at hfe
  split at hfe
  · exact absurd hfe (by simp)
  · split at hfe
    · exact absurd hfe (by simp)
    · rw [Option.some.injEq] at hfe
      subst hfe
      have := hts e he
      dsimp only
      exact max_le (by omega) (by omega)

theorem seg_span_container {events : List JEvent} {skip_labs : List String}
    {msmap : List (String × ℚ)} {hold grace : Int} {evs : List REvent}
    (hhold : 0 ≤ hold) (hgrace : 0 ≤ grace)
    (hts : ∀ e ∈ events, 0 ≤ e.ts_ms)
    (hlab : ∀ e ∈ events, effLabel e = e.label.getD "")
    (hcase : ∀ e ∈ events, ∀ l ∈ skip_labs,
      lowerStr (e.label.getD "") = lowerStr l → e.label.getD "" = l)
    (hkeys : ∀ l ∈ skip_labs, dictMem msmap l = true)
    (hevs : ∀ ev ∈ evs, ∃ e ∈ events, loadEventOne msmap e = some ev)
    {seg : Seg} (hWF : SegWF hold grace evs seg)
    (hskip : lowerStr seg.label ∈ skip_labs.map lowerStr) :
    seg.start_ms ≤ seg.end_ms ∧
    ∃ O ∈ mergeIntervals (serviceInts events skip_labs msmap grace) hold,
      O.start_ms ≤ seg.start_ms ∧ seg.end_ms ≤ O.end_ms := by
  obtain ⟨hne, hchain, hhead, hend, hprov⟩ := hWF
  obtain ⟨l, hl, hll⟩ := List.mem_map.mp hskip
  have hkey : ∀ k ∈ seg.keys,
      (⟨max 0 (k.1 - grace), k.1 + grace⟩ : Interval) ∈
        serviceInts events skip_labs msmap grace ∧ 0 ≤ k.1 := by
    intro k hkmem
    obtain ⟨ev, hev, hevlab, hevts⟩ := hprov k hkmem
    obtain ⟨e, he, hle⟩ := hevs ev hev
    obtain ⟨hts', hlabel', _, hsc⟩ := loadEventOne_spec hle
    have hlabe : e.label.getD "" = seg.label :=
      (hlab e he).symm.trans (hlabel'.symm.trans hevlab)
    have hexact : e.label.getD "" = l :=
      hcase e he l hl (by rw [hlabe]; exact hll.symm)
    have hmemskip : e.label.getD "" ∈ skip_labs := by rw [hexact]; exact hl
    have hmm : dictMem msmap (e.label.getD "") = true := by
      rw [hexact]; exact hkeys l hl
    have hml : ms_lookup msmap (effLabel e) 0.25
        = dictGet msmap (e.label.getD "")
          (dictGet msmap "default" DEFAULT_THRESH) := by
      rw [hlab e he, ms_lookup, if_pos hmm]
      exact dictGet_of_mem hmm 0 _
    rw [hml] at hsc
    have hf : (if e.label.getD "" ∉ skip_labs then none
        else if e.score.getD 0 < dictGet msmap (e.label.getD "")
            (dictGet msmap "default" DEFAULT_THRESH) then none
        else some (⟨max 0 (e.ts_ms - grace), e.ts_ms + grace⟩ : Interval))
        = some (⟨max 0 (e.ts_ms - grace), e.ts_ms + grace⟩ : Interval) := by
      rw [if_neg (not_not_intro hmemskip), if_neg hsc]
    have hte : e.ts_ms = k.1 := hts'.symm.trans hevts
    have h0 : 0 ≤ k.1 := by rw [← hte]; exact hts e he
    refine ⟨?_, h0⟩
    rw [serviceInts, ← hte]
    exact List.mem_filterMap.mpr ⟨e, he, hf⟩
  have hproper := @serviceInts_proper events skip_labs msmap grace hgrace hts
  have hpw := mergeIntervals_pairwise _ hold hhold hproper
  rw [keyChain] at hchain
  have hchain' : List.Chain' (fun a b : Int => a ≤ b ∧ b - a ≤ hold)
      (seg.keys.map (fun k => k.1)) := (List.chain'_map _).mpr hchain
  obtain ⟨k1, krest, hk⟩ := List.exists_cons_of_ne_nil hne
  have hmap : seg.keys.map (fun k => k.1) = k1.1 :: krest.map (fun k => k.1) := by
    rw [hk, List.map_cons]
  have hpos : ∀ u ∈ k1.1 :: krest.map (fun k => k.1), 0 ≤ u := by
    intro u hu
    rw [← hmap] at hu
    obtain ⟨k, hkm, rfl⟩ := List.mem_map.mp hu
    exact (hkey k hkm).2
  have hcov : ∀ u ∈ k1.1 :: krest.map (fun k => k.1),
      ∃ O ∈ mergeIntervals (serviceInts events skip_labs msmap grace) hold,
      O.start_ms ≤ max 0 (u - grace) ∧ u + grace ≤ O.end_ms := by
    intro u hu
    rw [← hmap] at hu
    obtain ⟨k, hkm, rfl⟩ := List.mem_map.mp hu
    exact mergeIntervals_covers _ hold _ (hkey k hkm).1
  obtain ⟨O, hO, hcovall⟩ := chain_container grace hold hgrace hhold _ hpw
    k1.1 (krest.map (fun k => k.1)) hpos (by rw [← hmap]; exact hchain') hcov
  have hstart : seg.start_ms = k1.1 := hhead k1 (by simp [hk])
  have hlastk : seg.keys.getLast? = some (segLast seg) := by
    rw [segLast, List.getLastD_eq_getLast?]
    cases hgl : seg.keys.getLast? with
    | none => exact absurd (List.getLast?_eq_none_iff.mp hgl) hne
    | some z => rfl
  have hlmem : segLast seg ∈ seg.keys := List.mem_of_getLast?_eq_some hlastk
  have hltsmem : segLastTs seg ∈ k1.1 :: krest.map (fun k => k.1) := by
    rw [← hmap]
    exact List.mem_map.mpr ⟨segLast seg, hlmem, rfl⟩
  obtain ⟨hOls, hOle⟩ := hcovall (segLastTs seg) hltsmem
  obtain ⟨hO1, hO2⟩ := hcovall k1.1 (List.mem_cons_self _ _)
  have h0k1 : 0 ≤ k1.1 := hpos k1.1 (List.mem_cons_self _ _)
  have hOstart : O.start_ms ≤ seg.start_ms := by
    rw [hstart]
    exact le_trans hO1 (max_le (by omega) (by omega))
  have hOend : seg.end_ms ≤ O.end_ms := by
    rw [hend]
    exact hOle
  have hmono : List.Pairwise (fun a b : Int => a ≤ b)
      (k1.1 :: krest.map (fun k => k.1)) := by
    rw [← hmap]
    exact List.chain'_iff_pairwise.mp (hchain'.imp (fun a b h => h.1))
  have hse : seg.start_ms ≤ seg.end_ms := by
    rw [hstart, hend]
    rcases List.mem_cons.mp hltsmem with heq | hmem2
    · omega
    · have := (List.pairwise_cons.mp hmono).1 _ hmem2
      omega
  exact ⟨hse, O, hO, hOstart, hOend⟩

end Censorly

namespace Censorly

/-- C3 (amended): for every detection log whose events have non-negative
timestamps, no phobic raw-label substitution in effect, exact-case skip
labels that are all keys of the minimum-score map, and the same hold-gap,
grace and minimum-skip parameters, every skip interval the Redaction
Renderer computes (multi-instance segmentation, merge, minimum-duration
cut) is contained in some skip interval computed by the Redaction Stream
Service's `_calc_skip_intervals`: the service's intervals over-approximate
the renderer's. -/
theorem c3_service_covers_renderer (events : List JEvent)
    (blur_labs red_labs skip_labs : List String) (msmap : List (String × ℚ))
    (hold grace : Int) (iou maxcd : ℚ) (mkf : List (String × Int))
    (min_skip : Int)
    (hhold : 0 ≤ hold) (hgrace : 0 ≤ grace)
    (hts : ∀ e ∈ events, 0 ≤ e.ts_ms)
    (hlab : ∀ e ∈ events, effLabel e = e.label.getD "")
    (hcase : ∀ e ∈ events, ∀ l ∈ skip_labs,
      lowerStr (e.label.getD "") = lowerStr l → e.label.getD "" = l)
    (hkeys : ∀ l ∈ skip_labs, dictMem msmap l = true) :
    ∀ p ∈ rendererSkipIntervals events blur_labs red_labs skip_labs msmap
        hold grace iou maxcd mkf min_skip,
      ∃ iv ∈ calc_skip_intervals events skip_labs msmap hold grace min_skip,
        iv.start_ms ≤ p.1 ∧ p.2 ≤ iv.end_ms := by
  by_cases hempty : skip_labs = []
  · subst hempty
    rw [rendererSkipIntervals_nil_skip]
    intro p hp
    simp at hp
  · intro p hp
    rw [rendererSkipIntervals] at hp
    rw [merge_and_thresh] at hp
    split at hp
    · simp at hp
    · rename_i p0 rest heq
      have hq : ∀ q ∈ p0 :: rest,
          (∃ O ∈ mergeIntervals (serviceInts events skip_labs msmap grace) hold,
            O.start_ms ≤ q.1 ∧ q.2 ≤ O.end_ms) ∧ q.1 ≤ q.2 := by
        intro q hqmem
        rw [← heq] at hqmem
        have hq2 := (List.perm_insertionSort pairLe _).mem_iff.mp hqmem
        obtain ⟨seg, hsegmem, hspan⟩ := List.mem_map.mp hq2
        obtain ⟨hsegmem1, _⟩ := List.mem_filter.mp hsegmem
        obtain ⟨hsegs, hpred⟩ := List.mem_filter.mp hsegmem1
        have hskipmem : lowerStr seg.label ∈ skip_labs.map lowerStr :=
          of_decide_eq_true hpred
        have hWF := build_segments_multi_WF _ hold grace iou maxcd seg hsegs
        obtain ⟨hse, O, hO, hOs, hOe⟩ := seg_span_container hhold hgrace hts
          hlab hcase hkeys (fun ev hev => load_events_mem hev) hWF hskipmem
        rw [← hspan]
        exact ⟨⟨O, hO, hOs, hOe⟩, hse⟩
      have hsorted : List.Pairwise pairLe (p0 :: rest) := by
        rw [← heq]
        exact List.sorted_insertionSort _ _
      have hfst : List.Pairwise (fun a b : Int × Int => a.1 ≤ b.1) (p0 :: rest) :=
        hsorted.imp (fun hab => by rw [pairLe] at hab; omega)
      obtain ⟨hfhead, hftail⟩ := List.pairwise_cons.mp hfst
      obtain ⟨⟨O0, hO0, h0s, h0e⟩, h0le⟩ := hq p0 (List.mem_cons_self _ _)
      have hproper := @serviceInts_proper events skip_labs msmap grace hgrace hts
      have hpw := mergeIntervals_pairwise _ hold hhold hproper
      obtain ⟨O, hO, hps, hpe, hmin⟩ := mergeThreshGo_covers min_skip hold hhold
        _ hpw rest p0 ⟨O0, hO0, h0s, h0e⟩ h0le
        (fun x hx => ⟨(hq x (List.mem_cons_of_mem _ hx)).1,
          (hq x (List.mem_cons_of_mem _ hx)).2, hfhead x hx⟩)
        hftail p hp
      refine ⟨O, ?_, hps, hpe⟩
      rw [calc_skip_intervals_eq, if_neg (by simp [hempty])]
      refine List.mem_filter.mpr ⟨hO, ?_⟩
      have hOp := mergeIntervals_proper _ hold hproper O hO
      simp only [ge_iff_le, decide_eq_true_eq]
      exact max_le (by omega) (by omega)

end Censorly

namespace Censorly

/-- A five-event alcohol detection log at 1000…3000 ms, every event
scoring 0.9 with the same bbox — all within the hold gap, so both sides
compute a single merged skip span. -/
def evC : List JEvent :=
  [ ⟨1000, some "alcohol", some 0.9, some [0.5, 0.5, 0.2, 0.2], none⟩
  , ⟨1500, some "alcohol", some 0.9, some [0.5, 0.5, 0.2, 0.2], none⟩
  , ⟨2000, some "alcohol", some 0.9, some [0.5, 0.5, 0.2, 0.2], none⟩
  , ⟨2500, some "alcohol", some 0.9, some [0.5, 0.5, 0.2, 0.2], none⟩
  , ⟨3000, some "alcohol", some 0.9, some [0.5, 0.5, 0.2, 0.2], none⟩ ]

/-- A minimum-score map covering the alcohol label. -/
def msC : List (String × ℚ) := [("alcohol", 0.25), ("default", 0.4)]

theorem ratSqrt_zero : Rat.sqrt 0 = 0 := by simp [Rat.sqrt]

theorem stripStr_alcohol : stripStr "alcohol" = "alcohol" := rfl

theorem lowerStr_alcohol : lowerStr "alcohol" = "alcohol" := rfl

theorem strLt_alcohol : strLt "alcohol" "alcohol" = false := rfl

theorem stripStr_empty : stripStr "" = "" := rfl

theorem lowerStr_empty : lowerStr "" = "" := rfl

set_option maxHeartbeats 6000000 in
/-- C3 counterexample: on the five-event alcohol log with hold-gap 600 ms,
grace 200 ms and minimum skip 2000 ms, the service computes the skip
interval `[800, 3200]` (it pads every event timestamp by the grace on both
sides before merging) while the renderer computes `[1000, 3200]` (a
segment starts at its first keyframe's timestamp, unpadded, and only the
end gets the grace) — the two interval lists are not equal, refuting the
claimed equality. -/
theorem c3_counterexample :
    (calc_skip_intervals evC ["alcohol"] msC 600 200 2000).map
      (fun iv => (iv.start_ms, iv.end_ms)) = [((800 : Int), (3200 : Int))] ∧
    rendererSkipIntervals evC [] [] ["alcohol"] msC 600 200 0.1 0.25
      [("default", 1)] 2000 = [((1000 : Int), (3200 : Int))] ∧
    (calc_skip_intervals evC ["alcohol"] msC 600 200 2000).map
      (fun iv => (iv.start_ms, iv.end_ms)) ≠
    rendererSkipIntervals evC [] [] ["alcohol"] msC 600 200 0.1 0.25
      [("default", 1)] 2000 := by
  have h1 : (calc_skip_intervals evC ["alcohol"] msC 600 200 2000).map
      (fun iv => (iv.start_ms, iv.end_ms)) = [((800 : Int), (3200 : Int))] := by
    norm_num [calc_skip_intervals, evC, msC, dictGet, dictFind, DEFAULT_THRESH,
      mergeIntervals, sortByStart, mergeGo, List.insertionSort,
      List.orderedInsert, List.filterMap, List.filter]
  have h2 : rendererSkipIntervals evC [] [] ["alcohol"] msC 600 200 0.1 0.25
      [("default", 1)] 2000 = [((1000 : Int), (3200 : Int))] := by
    norm_num [rendererSkipIntervals, evC, msC, mkuniq, stripStr_alcohol,
      lowerStr_alcohol, strLt_alcohol, stripStr_empty, lowerStr_empty,
      load_events, loadEventOne, effLabel, effRaw, ms_lookup, dictMem, dictGet,
      dictFind, groupByLabel, firstUniq, firstUniqAux, tsKeys,
      build_segments_multi, processLabel, processTs, matchDetections, findBest,
      updateSeg, mkSeg, segLast, segLastTs, bb4, bbox_iou, center_dist,
      ratSqrt_zero, mergeThreshGo, merge_and_thresh, pairLe, segSortLe, revLe,
      List.insertionSort, List.orderedInsert, List.enum, List.enumFrom,
      List.filterMap, List.filter, List.dedup, List.foldl, List.getD,
      List.getLastD, List.getLast?, List.set, Option.getD, Option.map]
  exact ⟨h1, h2, by rw [h1, h2]; decide⟩

/-- Witness for C3 (amended): the containment theorem instantiated at the
counterexample input — the hypotheses hold there by evaluation, and every
renderer skip interval is contained in a service skip interval. -/
theorem c3_service_covers_renderer_witness :
    ((0 : Int) ≤ 600 ∧ (0 : Int) ≤ 200 ∧
      (∀ e ∈ evC, 0 ≤ e.ts_ms) ∧
      (∀ e ∈ evC, effLabel e = e.label.getD "") ∧
      (∀ e ∈ evC, ∀ l ∈ (["alcohol"] : List String),
        lowerStr (e.label.getD "") = lowerStr l → e.label.getD "" = l) ∧
      (∀ l ∈ (["alcohol"] : List String), dictMem msC l = true)) ∧
    ∀ p ∈ rendererSkipIntervals evC [] [] ["alcohol"] msC 600 200 0.1 0.25
        [("default", 1)] 2000,
      ∃ iv ∈ calc_skip_intervals evC ["alcohol"] msC 600 200 2000,
        iv.start_ms ≤ p.1 ∧ p.2 ≤ iv.end_ms :=
  ⟨⟨by decide, by decide, by decide, by decide, by decide, by decide⟩,
    c3_service_covers_renderer evC [] [] ["alcohol"] msC 600 200 0.1 0.25
      [("default", 1)] 2000 (by decide) (by decide) (by decide) (by decide)
      (by decide) (by decide)⟩

end Censorly
